import Mathlib

/-!
# Verification of the Sux4J C query-side runtime

Shallow embedding of the C sources (`spooky.c`, `sf.c`, `sf3.c`, `sf4.c`,
`mph.c`, `csf.c`, `csf3.c`) over `Nat`, with 64-bit machine arithmetic
modelled by explicit reduction modulo `2 ^ 64`.  Machine words are `Nat`s
bounded by `2 ^ 64`; byte buffers are `List Nat` (each element a byte) or,
mirroring a C pointer, a function `Nat → Nat` giving the byte at each index.
-/

/-! ## 64-bit word primitives -/

/-- `2 ^ 64`, the modulus of 64-bit machine arithmetic. -/
def M64 : Nat := 2 ^ 64

/-- 64-bit addition (C `+` on `uint64_t`). -/
def add64 (a b : Nat) : Nat := (a + b) % M64

/-- `ROTL64(x, k)` from spooky.c: `(x << k) | (x >> (64 - k))` on `uint64_t`. -/
def rotl64 (x k : Nat) : Nat := ((x <<< k) % M64) ||| (x >>> (64 - k))

/-- Fuel-bounded bit-length: `bitLenAux f n` is the number of binary digits
of `n`, computed with `f` units of fuel (exact whenever `n < 2 ^ f`). -/
def bitLenAux : Nat → Nat → Nat
  | 0, _ => 0
  | f + 1, n => if n = 0 then 0 else bitLenAux f (n / 2) + 1

/-- `__builtin_clzll` on a 64-bit value: count of leading zeros.
(For argument `0` the C builtin is undefined; this model returns 64.) -/
def clz64 (n : Nat) : Nat := 64 - bitLenAux 64 n

/-! ## SpookyHash (spooky.c) -/

/-- `SC_CONST` from spooky.c. -/
def SC_CONST : Nat := 0x9e3779b97f4a7c13

/-- The four-lane SpookyHash short state `h[0..3]` (all lanes `uint64_t`). -/
structure SpookyState where
  h0 : Nat
  h1 : Nat
  h2 : Nat
  h3 : Nat
deriving Repr, DecidableEq

/-- `spooky_read_le64`: little-endian 64-bit read of bytes
`p off, …, p (off+7)` from a byte source. -/
def spooky_read_le64 (p : Nat → Nat) (off : Nat) : Nat :=
  p off |||
  (p (off + 1) <<< 8) |||
  (p (off + 2) <<< 16) |||
  (p (off + 3) <<< 24) |||
  (p (off + 4) <<< 32) |||
  (p (off + 5) <<< 40) |||
  (p (off + 6) <<< 48) |||
  (p (off + 7) <<< 56)

/-- `spooky_short_mix` from spooky.c: twelve rotate/add/xor rounds,
line for line. -/
def spooky_short_mix (s : SpookyState) : SpookyState :=
  let h2 := rotl64 s.h2 50; let h2 := add64 h2 s.h3; let h0 := s.h0 ^^^ h2
  let h3 := rotl64 s.h3 52; let h3 := add64 h3 h0;   let h1 := s.h1 ^^^ h3
  let h0 := rotl64 h0 30;   let h0 := add64 h0 h1;   let h2 := h2 ^^^ h0
  let h1 := rotl64 h1 41;   let h1 := add64 h1 h2;   let h3 := h3 ^^^ h1
  let h2 := rotl64 h2 54;   let h2 := add64 h2 h3;   let h0 := h0 ^^^ h2
  let h3 := rotl64 h3 48;   let h3 := add64 h3 h0;   let h1 := h1 ^^^ h3
  let h0 := rotl64 h0 38;   let h0 := add64 h0 h1;   let h2 := h2 ^^^ h0
  let h1 := rotl64 h1 37;   let h1 := add64 h1 h2;   let h3 := h3 ^^^ h1
  let h2 := rotl64 h2 62;   let h2 := add64 h2 h3;   let h0 := h0 ^^^ h2
  let h3 := rotl64 h3 34;   let h3 := add64 h3 h0;   let h1 := h1 ^^^ h3
  let h0 := rotl64 h0 5;    let h0 := add64 h0 h1;   let h2 := h2 ^^^ h0
  let h1 := rotl64 h1 36;   let h1 := add64 h1 h2;   let h3 := h3 ^^^ h1
  ⟨h0, h1, h2, h3⟩

/-- `spooky_short_end` from spooky.c: eleven xor/rotate/add rounds,
line for line. -/
def spooky_short_end (s : SpookyState) : SpookyState :=
  let h3 := s.h3 ^^^ s.h2; let h2 := rotl64 s.h2 15; let h3 := add64 h3 h2
  let h0 := s.h0 ^^^ h3;   let h3 := rotl64 h3 52;   let h0 := add64 h0 h3
  let h1 := s.h1 ^^^ h0;   let h0 := rotl64 h0 26;   let h1 := add64 h1 h0
  let h2 := h2 ^^^ h1;     let h1 := rotl64 h1 51;   let h2 := add64 h2 h1
  let h3 := h3 ^^^ h2;     let h2 := rotl64 h2 28;   let h3 := add64 h3 h2
  let h0 := h0 ^^^ h3;     let h3 := rotl64 h3 9;    let h0 := add64 h0 h3
  let h1 := h1 ^^^ h0;     let h0 := rotl64 h0 47;   let h1 := add64 h1 h0
  let h2 := h2 ^^^ h1;     let h1 := rotl64 h1 54;   let h2 := add64 h2 h1
  let h3 := h3 ^^^ h2;     let h2 := rotl64 h2 32;   let h3 := add64 h3 h2
  let h0 := h0 ^^^ h3;     let h3 := rotl64 h3 25;   let h0 := add64 h0 h3
  let h1 := h1 ^^^ h0;     let h0 := rotl64 h0 63;   let h1 := add64 h1 h0
  ⟨h0, h1, h2, h3⟩

/-- `spooky_short_rehash` from spooky.c: seed the state from the first three
lanes of a 256-bit signature and apply one `spooky_short_mix`. -/
def spooky_short_rehash (sig : SpookyState) (seed : Nat) : SpookyState :=
  spooky_short_mix ⟨seed, add64 SC_CONST sig.h0, add64 SC_CONST sig.h1, add64 SC_CONST sig.h2⟩

/-! ### spooky_short, translated from the C (function-plus-length buffer)

The 32-byte block loop `for (; u.p64 < end; u.p64 += 4)` runs exactly
`length / 32` iterations, the byte pointer advancing 32 bytes per round. -/

/-- One 32-byte block of the loop body of `spooky_short`:
`h2 += w0; h3 += w1; ShortMix; h0 += w2; h1 += w3`. -/
def spooky_block_step (p : Nat → Nat) (off : Nat) (s : SpookyState) : SpookyState :=
  let s1 : SpookyState := { s with h2 := add64 s.h2 (spooky_read_le64 p off),
                                   h3 := add64 s.h3 (spooky_read_le64 p (off + 8)) }
  let s2 := spooky_short_mix s1
  { s2 with h0 := add64 s2.h0 (spooky_read_le64 p (off + 16)),
            h1 := add64 s2.h1 (spooky_read_le64 p (off + 24)) }

/-- The complete-block loop of `spooky_short`, running `n` iterations
starting at byte offset `off`. -/
def spooky_blocks (p : Nat → Nat) : Nat → Nat → SpookyState → SpookyState
  | _, 0, s => s
  | off, n + 1, s => spooky_blocks p (off + 32) n (spooky_block_step p off s)

/-- The 16-byte half-block absorb of `spooky_short`
(`h2 += w0; h3 += w1; ShortMix`). -/
def spooky_half_step (p : Nat → Nat) (off : Nat) (s : SpookyState) : SpookyState :=
  spooky_short_mix { s with h2 := add64 s.h2 (spooky_read_le64 p off),
                            h3 := add64 s.h3 (spooky_read_le64 p (off + 8)) }

/-- `case 0` of the trailing-bytes `switch` of `spooky_short`:
`h2 += SC_CONST; h3 += SC_CONST`. -/
def spooky_tc0 (_p : Nat → Nat) (_off : Nat) (s : SpookyState) : SpookyState :=
  { s with h2 := add64 s.h2 SC_CONST, h3 := add64 s.h3 SC_CONST }

/-- `case 1` of the trailing-bytes `switch`: `h2 += p[0]` then `break`. -/
def spooky_tc1 (p : Nat → Nat) (off : Nat) (s : SpookyState) : SpookyState :=
  { s with h2 := add64 s.h2 (p off) }

/-- `case 2`: `h2 += p[1] << 8` and fall through to case 1. -/
def spooky_tc2 (p : Nat → Nat) (off : Nat) (s : SpookyState) : SpookyState :=
  spooky_tc1 p off { s with h2 := add64 s.h2 (p (off + 1) <<< 8) }

/-- `case 3`: `h2 += p[2] << 16` and fall through. -/
def spooky_tc3 (p : Nat → Nat) (off : Nat) (s : SpookyState) : SpookyState :=
  spooky_tc2 p off { s with h2 := add64 s.h2 (p (off + 2) <<< 16) }

/-- `case 4`: `h2 += p[3] << 24` and fall through. -/
def spooky_tc4 (p : Nat → Nat) (off : Nat) (s : SpookyState) : SpookyState :=
  spooky_tc3 p off { s with h2 := add64 s.h2 (p (off + 3) <<< 24) }

/-- `case 5`: `h2 += p[4] << 32` and fall through. -/
def spooky_tc5 (p : Nat → Nat) (off : Nat) (s : SpookyState) : SpookyState :=
  spooky_tc4 p off { s with h2 := add64 s.h2 (p (off + 4) <<< 32) }

/-- `case 6`: `h2 += p[5] << 40` and fall through. -/
def spooky_tc6 (p : Nat → Nat) (off : Nat) (s : SpookyState) : SpookyState :=
  spooky_tc5 p off { s with h2 := add64 s.h2 (p (off + 5) <<< 40) }

/-- `case 7`: `h2 += p[6] << 48` and fall through. -/
def spooky_tc7 (p : Nat → Nat) (off : Nat) (s : SpookyState) : SpookyState :=
  spooky_tc6 p off { s with h2 := add64 s.h2 (p (off + 6) <<< 48) }

/-- `case 8`: aligned little-endian read into `h2`, then `break`. -/
def spooky_tc8 (p : Nat → Nat) (off : Nat) (s : SpookyState) : SpookyState :=
  { s with h2 := add64 s.h2 (spooky_read_le64 p off) }

/-- `case 9`: `h3 += p[8]` and fall through to case 8. -/
def spooky_tc9 (p : Nat → Nat) (off : Nat) (s : SpookyState) : SpookyState :=
  spooky_tc8 p off { s with h3 := add64 s.h3 (p (off + 8)) }

/-- `case 10`: `h3 += p[9] << 8` and fall through. -/
def spooky_tc10 (p : Nat → Nat) (off : Nat) (s : SpookyState) : SpookyState :=
  spooky_tc9 p off { s with h3 := add64 s.h3 (p (off + 9) <<< 8) }

/-- `case 11`: `h3 += p[10] << 16` and fall through. -/
def spooky_tc11 (p : Nat → Nat) (off : Nat) (s : SpookyState) : SpookyState :=
  spooky_tc10 p off { s with h3 := add64 s.h3 (p (off + 10) <<< 16) }

/-- `case 12`: `h3 += p[11] << 24` and fall through. -/
def spooky_tc12 (p : Nat → Nat) (off : Nat) (s : SpookyState) : SpookyState :=
  spooky_tc11 p off { s with h3 := add64 s.h3 (p (off + 11) <<< 24) }

/-- `case 13`: `h3 += p[12] << 32` and fall through. -/
def spooky_tc13 (p : Nat → Nat) (off : Nat) (s : SpookyState) : SpookyState :=
  spooky_tc12 p off { s with h3 := add64 s.h3 (p (off + 12) <<< 32) }

/-- `case 14`: `h3 += p[13] << 40` and fall through. -/
def spooky_tc14 (p : Nat → Nat) (off : Nat) (s : SpookyState) : SpookyState :=
  spooky_tc13 p off { s with h3 := add64 s.h3 (p (off + 13) <<< 40) }

/-- `case 15`: `h3 += p[14] << 48` and fall through. -/
def spooky_tc15 (p : Nat → Nat) (off : Nat) (s : SpookyState) : SpookyState :=
  spooky_tc14 p off { s with h3 := add64 s.h3 (p (off + 14) <<< 48) }

/-- The trailing-bytes `switch (left)` of `spooky_short`, dispatching on
`left ∈ 0..15` to the fall-through chains above (`left ≥ 16` cannot occur
in `spooky_short`). -/
def spooky_tail (p : Nat → Nat) (off : Nat) (s : SpookyState) : Nat → SpookyState
  | 0 => spooky_tc0 p off s
  | 1 => spooky_tc1 p off s
  | 2 => spooky_tc2 p off s
  | 3 => spooky_tc3 p off s
  | 4 => spooky_tc4 p off s
  | 5 => spooky_tc5 p off s
  | 6 => spooky_tc6 p off s
  | 7 => spooky_tc7 p off s
  | 8 => spooky_tc8 p off s
  | 9 => spooky_tc9 p off s
  | 10 => spooky_tc10 p off s
  | 11 => spooky_tc11 p off s
  | 12 => spooky_tc12 p off s
  | 13 => spooky_tc13 p off s
  | 14 => spooky_tc14 p off s
  | 15 => spooky_tc15 p off s
  | _ + 16 => s

/-- `spooky_short` from spooky.c on a byte source `p` of `length` bytes:
init `[seed, seed, SC_CONST, SC_CONST]`; if `length > 15`, absorb
`length / 32` full blocks and, when 16 or more bytes remain, one 16-byte
half block; absorb the 0..15 trailing bytes through the `switch`; add
`length * 8` to `h0`; finish with `spooky_short_end`. -/
def spooky_short (p : Nat → Nat) (length seed : Nat) : SpookyState :=
  let left := length % 32
  let s : SpookyState := ⟨seed, seed, SC_CONST, SC_CONST⟩
  let r : SpookyState × Nat × Nat :=
    if 15 < length then
      let s := spooky_blocks p 0 (length / 32) s
      let off := length / 32 * 32
      if 16 ≤ left then (spooky_half_step p off s, off + 16, left - 16)
      else (s, off, left)
    else (s, 0, left)
  let s := spooky_tail p r.2.1 r.1 r.2.2
  spooky_short_end { s with h0 := add64 s.h0 (length * 8) }

/-! ## C8: spooky_short_rehash -/

/-- C8: `spooky_short_rehash` ignores the fourth signature lane — two
256-bit signatures agreeing on lanes 0, 1, 2 rehash identically under every
seed — and its output is exactly `ShortMix` applied to the state
`[seed, SC_CONST + sig0, SC_CONST + sig1, SC_CONST + sig2]`. -/
theorem spooky_short_rehash_ignores_lane3 (seed s0 s1 s2 t3 t3' : Nat) :
    spooky_short_rehash ⟨s0, s1, s2, t3⟩ seed = spooky_short_rehash ⟨s0, s1, s2, t3'⟩ seed ∧
    spooky_short_rehash ⟨s0, s1, s2, t3⟩ seed =
      spooky_short_mix ⟨seed, add64 SC_CONST s0, add64 SC_CONST s1, add64 SC_CONST s2⟩ := by
  exact ⟨rfl, rfl⟩

/-! ## Bit-length facts for `clz64` -/

theorem bitLenAux_le : ∀ f n, bitLenAux f n ≤ f := by
  intro f
  induction f with
  | zero => intro n; simp [bitLenAux]
  | succ f ih =>
    intro n
    simp only [bitLenAux]
    split
    · exact Nat.zero_le _
    · exact Nat.succ_le_succ (ih _)

theorem lt_two_pow_bitLenAux : ∀ f n, n < 2 ^ f → n < 2 ^ bitLenAux f n := by
  intro f
  induction f with
  | zero => intro n h; simpa [bitLenAux] using h
  | succ f ih =>
    intro n h
    simp only [bitLenAux]
    split
    · simp_all
    · have h2 : n / 2 < 2 ^ f := by
        have := Nat.pow_succ 2 f
        omega
      have := ih (n / 2) h2
      have hn : n < 2 * (n / 2) + 2 := by omega
      have : 2 * (n / 2) + 2 ≤ 2 * 2 ^ bitLenAux f (n / 2) := by omega
      calc n < 2 * (n / 2) + 2 := hn
        _ ≤ 2 * 2 ^ bitLenAux f (n / 2) := this
        _ = 2 ^ (bitLenAux f (n / 2) + 1) := by rw [Nat.pow_succ]; ring

theorem bitLenAux_le_of_lt : ∀ f n k, n < 2 ^ k → bitLenAux f n ≤ k := by
  intro f
  induction f with
  | zero => intro n k _; simp [bitLenAux]
  | succ f ih =>
    intro n k h
    simp only [bitLenAux]
    split
    · exact Nat.zero_le _
    · rename_i hn
      match k with
      | 0 => simp at h; omega
      | k + 1 =>
        have h2 : n / 2 < 2 ^ k := by
          have := Nat.pow_succ 2 k
          omega
        exact Nat.succ_le_succ (ih _ _ h2)

theorem bitLenAux_pos (f n : Nat) (h : 1 ≤ n) : 1 ≤ bitLenAux (f + 1) n := by
  simp only [bitLenAux]
  split
  · omega
  · exact Nat.succ_le_succ (Nat.zero_le _)

/-! ## Edge derivation (`signature_to_equation`)

The function below appears verbatim (up to the identifier `triple` /
`signature`) as a `static inline` in sf.c, sf3.c, sf4.c, mph.c and csf3.c:
rehash the signature with the bucket seed, then map lane `i` to
`((hash[i] & mask) * num_variables) >> shift` with
`shift = __builtin_clzll(num_variables)` and `mask = (1 << shift) - 1`. -/

/-- `signature_to_equation` from sf3.c / mph.c / csf3.c (first three lanes). -/
def signature_to_equation (sig : SpookyState) (seed num_variables : Nat) :
    Nat × Nat × Nat :=
  let hash := spooky_short_rehash sig seed
  let shift := clz64 num_variables
  let mask := (1 <<< shift) - 1
  (((hash.h0 &&& mask) * num_variables) >>> shift,
   ((hash.h1 &&& mask) * num_variables) >>> shift,
   ((hash.h2 &&& mask) * num_variables) >>> shift)

/-- `signature_to_equation` from sf4.c: same map applied to all four lanes. -/
def sf4_signature_to_equation (sig : SpookyState) (seed num_variables : Nat) :
    Nat × Nat × Nat × Nat :=
  let hash := spooky_short_rehash sig seed
  let shift := clz64 num_variables
  let mask := (1 <<< shift) - 1
  (((hash.h0 &&& mask) * num_variables) >>> shift,
   ((hash.h1 &&& mask) * num_variables) >>> shift,
   ((hash.h2 &&& mask) * num_variables) >>> shift,
   ((hash.h3 &&& mask) * num_variables) >>> shift)

/-- Core range fact for one lane: for `1 ≤ nv < 2^64`, the masked product
never exceeds `2^64` and the shifted result lies below `nv`. -/
theorem edge_endpoint_lt (h nv : Nat) (h1 : 1 ≤ nv) (h64 : nv < 2 ^ 64) :
    (h &&& ((1 <<< clz64 nv) - 1)) * nv < 2 ^ 64 ∧
    ((h &&& ((1 <<< clz64 nv) - 1)) * nv) >>> clz64 nv < nv := by
  have hble : bitLenAux 64 nv ≤ 64 := bitLenAux_le 64 nv
  have hnvlt : nv < 2 ^ bitLenAux 64 nv := lt_two_pow_bitLenAux 64 nv h64
  have hs : clz64 nv = 64 - bitLenAux 64 nv := rfl
  have hmask : (1 <<< clz64 nv) = 2 ^ clz64 nv := Nat.one_shiftLeft _
  have hmlt : (2 : Nat) ^ clz64 nv - 1 < 2 ^ clz64 nv :=
    Nat.sub_lt (Nat.pos_pow_of_pos _ (by omega)) (by omega)
  have hand : h &&& ((1 <<< clz64 nv) - 1) < 2 ^ clz64 nv := by
    rw [hmask]; exact Nat.and_lt_two_pow h hmlt
  have hsum : clz64 nv + bitLenAux 64 nv = 64 := by omega
  have hprod : (h &&& ((1 <<< clz64 nv) - 1)) * nv < 2 ^ 64 := by
    calc (h &&& ((1 <<< clz64 nv) - 1)) * nv
        < 2 ^ clz64 nv * 2 ^ bitLenAux 64 nv :=
          Nat.mul_lt_mul_of_lt_of_lt hand hnvlt
      _ = 2 ^ 64 := by rw [← Nat.pow_add, hsum]
  refine ⟨hprod, ?_⟩
  rw [Nat.shiftRight_eq_div_pow]
  rw [Nat.div_lt_iff_lt_mul (Nat.pos_pow_of_pos _ (by omega))]
  have h2 : (h &&& ((1 <<< clz64 nv) - 1)) * nv ≤ (2 ^ clz64 nv - 1) * nv :=
    Nat.mul_le_mul_right nv (by omega)
  have h3 : (2 ^ clz64 nv - 1) * nv < nv * 2 ^ clz64 nv := by
    have hp : 0 < (2 : Nat) ^ clz64 nv := Nat.pos_pow_of_pos _ (by omega)
    calc (2 ^ clz64 nv - 1) * nv = 2 ^ clz64 nv * nv - nv := by
          rw [Nat.sub_mul, Nat.one_mul]
      _ < 2 ^ clz64 nv * nv := by
          have : nv ≤ 2 ^ clz64 nv * nv := Nat.le_mul_of_pos_left nv hp
          omega
      _ = nv * 2 ^ clz64 nv := Nat.mul_comm _ _
  omega

/-- C2: for every 256-bit signature, seed, and `1 ≤ num_variables < 2^63`,
`signature_to_equation` returns endpoints in `[0, num_variables)`, and no
64-bit masked product `(hash[i] & mask) * num_variables` wraps. -/
theorem signature_to_equation_in_range (sig : SpookyState) (seed nv : Nat)
    (h1 : 1 ≤ nv) (h63 : nv < 2 ^ 63) :
    (signature_to_equation sig seed nv).1 < nv ∧
    (signature_to_equation sig seed nv).2.1 < nv ∧
    (signature_to_equation sig seed nv).2.2 < nv ∧
    (((spooky_short_rehash sig seed).h0 &&& ((1 <<< clz64 nv) - 1)) * nv < 2 ^ 64 ∧
     ((spooky_short_rehash sig seed).h1 &&& ((1 <<< clz64 nv) - 1)) * nv < 2 ^ 64 ∧
     ((spooky_short_rehash sig seed).h2 &&& ((1 <<< clz64 nv) - 1)) * nv < 2 ^ 64) := by
  have h64 : nv < 2 ^ 64 := by
    have : (2 : Nat) ^ 63 < 2 ^ 64 := by norm_num
    omega
  have e0 := edge_endpoint_lt (spooky_short_rehash sig seed).h0 nv h1 h64
  have e1 := edge_endpoint_lt (spooky_short_rehash sig seed).h1 nv h1 h64
  have e2 := edge_endpoint_lt (spooky_short_rehash sig seed).h2 nv h1 h64
  exact ⟨e0.2, e1.2, e2.2, e0.1, e1.1, e2.1⟩

/-- Witness for C2 at a concrete signature, seed and `num_variables = 10`. -/
theorem signature_to_equation_in_range_witness :
    1 ≤ 10 ∧ (10 : Nat) < 2 ^ 63 ∧
    (signature_to_equation ⟨1, 2, 3, 4⟩ 5 10).1 < 10 := by
  refine ⟨by decide, by norm_num, ?_⟩
  exact (signature_to_equation_in_range ⟨1, 2, 3, 4⟩ 5 10 (by decide) (by norm_num)).1

/-! ## Bit-packed array accessor (`get_value`) -/

/-- The value of a 64-bit-word array read as one (little-endian) natural
number: word `k` contributes its bits at positions `64*k .. 64*k+63`. -/
def wordsVal : List Nat → Nat
  | [] => 0
  | w :: ws => w + 2 ^ 64 * wordsVal ws

/-- `get_value` from csf3.c: read `width` bits at absolute bit position
`pos` of a 64-bit-word array, combining two adjacent words when the read
straddles a word boundary. -/
def get_value_bits (array : List Nat) (pos width : Nat) : Nat :=
  let l := 64 - width
  let start_word := pos / 64
  let start_bit := pos % 64
  if start_bit ≤ l then ((array.getD start_word 0 <<< (l - start_bit)) % M64) >>> l
  else (array.getD start_word 0 >>> start_bit) |||
    (((array.getD (start_word + 1) 0 <<< (64 + l - start_bit)) % M64) >>> l)

/-- `get_value` from sf.c / sf3.c / sf4.c: same body as the csf3.c variant
after the initial `pos *= width` (positions are width-`width` units). -/
def get_value (array : List Nat) (pos width : Nat) : Nat :=
  get_value_bits array (pos * width) width

/-- Bit `i` of `wordsVal arr` is bit `i % 64` of word `i / 64`
(out-of-range words reading as zero). -/
theorem testBit_wordsVal (arr : List Nat) (hw : ∀ w ∈ arr, w < 2 ^ 64) (i : Nat) :
    (wordsVal arr).testBit i = (arr.getD (i / 64) 0).testBit (i % 64) := by
  induction arr generalizing i with
  | nil => simp [wordsVal, Nat.zero_testBit]
  | cons w ws ih =>
    have hwlt : w < 2 ^ 64 := hw w (List.mem_cons_self w ws)
    have hws : ∀ x ∈ ws, x < 2 ^ 64 := fun x hx => hw x (List.mem_cons_of_mem w hx)
    show (w + 2 ^ 64 * wordsVal ws).testBit i = _
    rw [Nat.add_comm w, Nat.testBit_mul_pow_two_add (wordsVal ws) hwlt i]
    by_cases hi : i < 64
    · simp [Nat.div_eq_of_lt hi, Nat.mod_eq_of_lt hi, hi]
    · have h64 : 64 ≤ i := Nat.le_of_not_lt hi
      have hdiv : i / 64 = (i - 64) / 64 + 1 := by omega
      have hmod : i % 64 = (i - 64) % 64 := by omega
      simp only [if_neg hi, ih hws (i - 64), hdiv, hmod, List.getD_cons_succ]

/-- Words of a 64-bit-word array are 64-bit, including the zero read past
the end. -/
theorem getD_lt_of_words (arr : List Nat) (hw : ∀ w ∈ arr, w < 2 ^ 64) (k : Nat) :
    arr.getD k 0 < 2 ^ 64 := by
  induction arr generalizing k with
  | nil => simp [List.getD]
  | cons w ws ih =>
    match k with
    | 0 => exact hw w (List.mem_cons_self w ws)
    | k + 1 =>
      rw [List.getD_cons_succ]
      exact ih (fun x hx => hw x (List.mem_cons_of_mem w hx)) k

/-- Bit `j` of the in-word extraction `(A << (l - sb)) >> l` (case
`sb ≤ l` of `get_value`): it is bit `sb + j` of `A`, masked to `width`. -/
theorem extract_in_word (A sb width j : Nat) (h1 : 1 ≤ width) (h2 : width ≤ 64)
    (hsb : sb ≤ 64 - width) :
    (((A <<< (64 - width - sb)) % 2 ^ 64) >>> (64 - width)).testBit j =
      (decide (j < width) && A.testBit (sb + j)) := by
  rw [Nat.testBit_shiftRight, Nat.testBit_mod_two_pow, Nat.testBit_shiftLeft]
  by_cases hj : j < width
  · have hidx : 64 - width + j - (64 - width - sb) = sb + j := by omega
    have hge : 64 - width + j ≥ 64 - width - sb := by omega
    have hlt : 64 - width + j < 64 := by omega
    simp [hidx, hge, hlt, hj]
  · have hnot : ¬(64 - width + j < 64) := by omega
    simp [hj, hnot]

/-- Bit `j` of the straddling extraction
`(A >> sb) | (B << (64 + l - sb)) >> l` (case `sb > l` of `get_value`). -/
theorem extract_straddle (A B sb width j : Nat) (hA : A < 2 ^ 64)
    (h1 : 1 ≤ width) (h2 : width ≤ 64) (hsb : 64 - width < sb) (hsb64 : sb < 64) :
    ((A >>> sb) ||| (((B <<< (64 + (64 - width) - sb)) % 2 ^ 64) >>> (64 - width))).testBit j =
      (decide (j < width) &&
        (if sb + j < 64 then A.testBit (sb + j) else B.testBit (sb + j - 64))) := by
  rw [Nat.testBit_lor, Nat.testBit_shiftRight, Nat.testBit_shiftRight,
    Nat.testBit_mod_two_pow, Nat.testBit_shiftLeft]
  by_cases hj : j < width
  · by_cases hlow : sb + j < 64
    · have hnge : ¬(64 - width + j ≥ 64 + (64 - width) - sb) := by omega
      simp [hlow, hnge, hj]
    · have hAfalse : A.testBit (sb + j) = false :=
        Nat.testBit_lt_two_pow (Nat.lt_of_lt_of_le hA
          (Nat.pow_le_pow_right (by omega) (by omega)))
      have hge : 64 - width + j ≥ 64 + (64 - width) - sb := by omega
      have hidx : 64 - width + j - (64 + (64 - width) - sb) = sb + j - 64 := by omega
      have hlt : 64 - width + j < 64 := by omega
      simp [hlow, hAfalse, hge, hidx, hlt, hj]
  · have hAfalse : A.testBit (sb + j) = false :=
      Nat.testBit_lt_two_pow (Nat.lt_of_lt_of_le hA
        (Nat.pow_le_pow_right (by omega) (by omega)))
    have hnot : ¬(64 - width + j < 64) := by omega
    simp [hj, hnot, hAfalse]

/-- C3 helper: the bit-level accessor extracts exactly the `width` bits at
bit position `pos` of the array value, upper bits zero. -/
theorem get_value_bits_spec (array : List Nat) (pos width : Nat)
    (hw : ∀ w ∈ array, w < 2 ^ 64) (h1 : 1 ≤ width) (h2 : width ≤ 64) :
    get_value_bits array pos width = wordsVal array / 2 ^ pos % 2 ^ width := by
  have hdm : pos = 64 * (pos / 64) + pos % 64 := (Nat.div_add_mod pos 64).symm
  have hm64 : pos % 64 < 64 := Nat.mod_lt pos (by omega)
  have hAlt : array.getD (pos / 64) 0 < 2 ^ 64 := getD_lt_of_words array hw _
  apply Nat.eq_of_testBit_eq
  intro j
  rw [← Nat.shiftRight_eq_div_pow]
  rw [Nat.testBit_mod_two_pow, Nat.testBit_shiftRight,
    testBit_wordsVal array hw (pos + j)]
  unfold get_value_bits
  simp only [M64]
  by_cases hcase : pos % 64 ≤ 64 - width
  · rw [if_pos hcase, extract_in_word _ _ _ _ h1 h2 hcase]
    by_cases hj : j < width
    · have hi1 : (pos + j) / 64 = pos / 64 := by omega
      have hi2 : (pos + j) % 64 = pos % 64 + j := by omega
      rw [hi1, hi2]
    · simp [hj]
  · rw [if_neg hcase,
      extract_straddle _ _ _ _ _ hAlt h1 h2 (Nat.lt_of_not_le hcase) hm64]
    by_cases hj : j < width
    · by_cases hlow : pos % 64 + j < 64
      · have hi1 : (pos + j) / 64 = pos / 64 := by omega
        have hi2 : (pos + j) % 64 = pos % 64 + j := by omega
        rw [hi1, hi2, if_pos hlow]
      · have hi1 : (pos + j) / 64 = pos / 64 + 1 := by omega
        have hi2 : (pos + j) % 64 = pos % 64 + j - 64 := by omega
        rw [hi1, hi2, if_neg hlow]
    · simp [hj]

/-- C3: for every 64-bit-word array, `width ∈ [1, 64]` and position whose
width-bit field at bit `pos * width` lies within the array, `get_value`
returns exactly those `width` bits, low-justified with upper bits zero —
even when the field straddles a word boundary. -/
theorem get_value_spec (array : List Nat) (pos width : Nat)
    (hw : ∀ w ∈ array, w < 2 ^ 64) (h1 : 1 ≤ width) (h2 : width ≤ 64)
    (_hfit : pos * width + width ≤ 64 * array.length) :
    get_value array pos width = wordsVal array / 2 ^ (pos * width) % 2 ^ width ∧
    get_value array pos width < 2 ^ width := by
  have h := get_value_bits_spec array (pos * width) width hw h1 h2
  refine ⟨h, ?_⟩
  rw [get_value, h]
  exact Nat.mod_lt _ (Nat.pos_pow_of_pos _ (by omega))

/-- Witness for C3: a 7-bit field at unit position 9 (bit position 63),
straddling the boundary between the two words of a concrete array. -/
theorem get_value_spec_witness :
    (∀ w ∈ [0xFEDCBA9876543210, 0x0123456789ABCDEF], w < 2 ^ 64) ∧ 1 ≤ 7 ∧ 7 ≤ 64 ∧
    9 * 7 + 7 ≤ 64 * 2 ∧
    get_value [0xFEDCBA9876543210, 0x0123456789ABCDEF] 9 7 =
      wordsVal [0xFEDCBA9876543210, 0x0123456789ABCDEF] / 2 ^ (9 * 7) % 2 ^ 7 := by
  refine ⟨by decide, by decide, by decide, by decide, ?_⟩
  exact (get_value_spec [0xFEDCBA9876543210, 0x0123456789ABCDEF] 9 7
    (by decide) (by decide) (by decide) (by decide)).1

/-! ## Population count of non-zero 2-bit pairs (mph.c) -/

/-- Fuel-bounded population count (binary digit sum). -/
def popcountAux : Nat → Nat → Nat
  | 0, _ => 0
  | f + 1, x => x % 2 + popcountAux f (x / 2)

/-- `__builtin_popcountll`: number of set bits of a 64-bit value. -/
def popcount64 (x : Nat) : Nat := popcountAux 64 x

/-- `_count_nonzero_pairs` from mph.c:
`popcount((x | x >> 1) & 0x5555555555555555)`. -/
def countNonzeroPairsWord (x : Nat) : Nat :=
  popcount64 ((x ||| x >>> 1) &&& 0x5555555555555555)

/-- The middle full-word loop of `count_nonzero_pairs`
(`while (block < end_block) pairs += _count_nonzero_pairs(array[block++])`),
summing `n` words from index `b`. -/
def cnpMid (array : List Nat) : Nat → Nat → Nat
  | _, 0 => 0
  | b, n + 1 => countNonzeroPairsWord (array.getD b 0) + cnpMid array (b + 1) n

/-- `count_nonzero_pairs` from mph.c: number of non-zero 2-bit pairs with
pair index in `[start, end_)`, computed per 64-bit word with masked
boundary words. -/
def count_nonzero_pairs (start end_ : Nat) (array : List Nat) : Nat :=
  let block := start / 32
  let end_block := end_ / 32
  let start_offset := start % 32
  let end_offset := end_ % 32
  if block = end_block then
    countNonzeroPairsWord
      ((array.getD block 0 &&& ((1 <<< (end_offset * 2)) - 1)) >>> (start_offset * 2))
  else
    (if start_offset ≠ 0 then
      countNonzeroPairsWord (array.getD block 0 >>> (start_offset * 2)) else 0) +
    cnpMid array (block + (if start_offset ≠ 0 then 1 else 0))
      (end_block - (block + (if start_offset ≠ 0 then 1 else 0))) +
    (if end_offset ≠ 0 then
      countNonzeroPairsWord (array.getD end_block 0 &&& ((1 <<< (end_offset * 2)) - 1)) else 0)

/-- The 2-bit pair at pair index `p` of the array, as a value in `0..3`. -/
def pairValAt (array : List Nat) (p : Nat) : Nat :=
  array.getD (p / 32) 0 / 4 ^ (p % 32) % 4

/-- Specification count: the number of pair indices in `[s, e)` whose 2-bit
value is non-zero. -/
def specPairCount (s e : Nat) (array : List Nat) : Nat :=
  (List.range (e - s)).countP (fun i => decide (pairValAt array (s + i) ≠ 0))

theorem popcountAux_eq_countP :
    ∀ f x, x < 2 ^ f → popcountAux f x = (List.range f).countP (x.testBit ·) := by
  intro f
  induction f with
  | zero =>
    intro x h
    have : x = 0 := by simpa using h
    simp [popcountAux, this]
  | succ f ih =>
    intro x h
    have hx2 : x / 2 < 2 ^ f := by
      have := Nat.pow_succ 2 f
      omega
    rw [List.range_succ_eq_map]
    rw [List.countP_cons, List.countP_map]
    have hcomp : ((x.testBit ·) ∘ Nat.succ) = ((x / 2).testBit ·) := by
      funext i
      simp only [Function.comp]
      rw [Nat.succ_eq_add_one, Nat.testBit_add_one]
    show popcountAux (f + 1) x = _
    simp only [popcountAux, hcomp, ← ih (x / 2) hx2]
    rw [Nat.testBit_zero]
    rcases Nat.mod_two_eq_zero_or_one x with h2 | h2 <;> simp [h2] <;> omega

/-- Bits of the alternating mask `0x5555555555555555`: exactly the even
positions below 64. -/
theorem testBit_mask5 (j : Nat) :
    (0x5555555555555555 : Nat).testBit j = (decide (j % 2 = 0) && decide (j < 64)) := by
  by_cases hj : j < 64
  · have hball : ∀ j, j < 64 →
        (0x5555555555555555 : Nat).testBit j = decide (j % 2 = 0) := by decide
    simp [hball j hj, hj]
  · have hlt : (0x5555555555555555 : Nat) < 2 ^ j :=
      Nat.lt_of_lt_of_le (show (0x5555555555555555 : Nat) < 2 ^ 64 by norm_num)
        (Nat.pow_le_pow_right (by omega) (by omega))
    simp [Nat.testBit_lt_two_pow hlt, hj]

/-- The 2-bit pair of `x` at pair index `i` is non-zero iff bit `2i` or bit
`2i+1` of `x` is set. -/
theorem pair_testBit (x i : Nat) :
    (x.testBit (2 * i) || x.testBit (2 * i + 1)) = decide (x / 4 ^ i % 4 ≠ 0) := by
  have h4 : (4 : Nat) ^ i = 2 ^ (2 * i) := by
    rw [show (4 : Nat) = 2 ^ 2 by norm_num, ← Nat.pow_mul, Nat.mul_comm]
  have hdd : x / 2 ^ (2 * i + 1) = x / 2 ^ (2 * i) / 2 := by
    rw [Nat.pow_succ, ← Nat.div_div_eq_div_mul]
  simp only [Nat.testBit_to_div_mod, h4, hdd]
  rcases Nat.mod_two_eq_zero_or_one (x / 2 ^ (2 * i)) with h1 | h1 <;>
    rcases Nat.mod_two_eq_zero_or_one (x / 2 ^ (2 * i) / 2) with h2 | h2 <;>
      simp [h1, h2] <;> omega

/-- Splitting a count over `range (2 * n)` into a count over pairs when the
predicate is false on odd numbers. -/
theorem countP_range_even (g : Nat → Bool) (hodd : ∀ i, g (2 * i + 1) = false) :
    ∀ n, (List.range (2 * n)).countP g = (List.range n).countP (fun i => g (2 * i)) := by
  intro n
  induction n with
  | zero => simp
  | succ n ih =>
    have h2 : 2 * (n + 1) = 2 * n + 1 + 1 := by omega
    rw [h2, List.range_succ, List.range_succ, List.countP_append, List.countP_append,
      List.range_succ, List.countP_append]
    simp [ih, hodd n, List.countP_cons, List.countP_nil]

/-- `_count_nonzero_pairs` counts the non-zero 2-bit pairs of a 64-bit word. -/
theorem countNonzeroPairsWord_eq (x : Nat) (hx : x < 2 ^ 64) :
    countNonzeroPairsWord x =
      (List.range 32).countP (fun i => decide (x / 4 ^ i % 4 ≠ 0)) := by
  have hy : (x ||| x >>> 1) &&& 0x5555555555555555 < 2 ^ 64 :=
    Nat.and_lt_two_pow _ (by norm_num)
  rw [countNonzeroPairsWord, popcount64, popcountAux_eq_countP 64 _ hy]
  have hbits : ∀ j, ((x ||| x >>> 1) &&& 0x5555555555555555).testBit j =
      ((x.testBit j || x.testBit (j + 1)) && (decide (j % 2 = 0) && decide (j < 64))) := by
    intro j
    rw [Nat.testBit_and, Nat.testBit_or, Nat.testBit_shiftRight, testBit_mask5]
    rw [Nat.add_comm 1 j]
  have h64 : (64 : Nat) = 2 * 32 := by norm_num
  calc (List.range 64).countP (((x ||| x >>> 1) &&& 0x5555555555555555).testBit ·)
      = (List.range (2 * 32)).countP
          (fun j => (x.testBit j || x.testBit (j + 1)) &&
            (decide (j % 2 = 0) && decide (j < 64))) := by
        rw [← h64]
        exact List.countP_congr (fun a _ => by rw [hbits a])
    _ = (List.range 32).countP
          (fun i => (x.testBit (2 * i) || x.testBit (2 * i + 1)) &&
            (decide (2 * i % 2 = 0) && decide (2 * i < 64))) := by
        apply countP_range_even
        intro i
        simp [Nat.mul_add_mod]
    _ = (List.range 32).countP (fun i => decide (x / 4 ^ i % 4 ≠ 0)) := by
        apply List.countP_congr
        intro a ha
        have ha32 : a < 32 := List.mem_range.mp ha
        have h1 : 2 * a % 2 = 0 := by omega
        have h2 : 2 * a < 64 := by omega
        have hpt : (x.testBit (2 * a) || x.testBit (2 * a + 1)) = true ↔
            x / 4 ^ a % 4 ≠ 0 := by rw [pair_testBit]; simp
        simp only [h1, h2]
        simpa using hpt

/-- A within-word segment of the specification count, expressed over the
single word holding it. -/
theorem specPairCount_segment (array : List Nat) (b so eo : Nat)
    (hso : so ≤ eo) (heo : eo ≤ 32) :
    specPairCount (32 * b + so) (32 * b + eo) array =
      (List.range (eo - so)).countP
        (fun i => decide (array.getD b 0 / 4 ^ (so + i) % 4 ≠ 0)) := by
  unfold specPairCount
  have h1 : 32 * b + eo - (32 * b + so) = eo - so := by omega
  rw [h1]
  apply List.countP_congr
  intro i hi
  have hi' : i < eo - so := List.mem_range.mp hi
  have hdiv : (32 * b + so + i) / 32 = b := by omega
  have hmod : (32 * b + so + i) % 32 = so + i := by omega
  simp [pairValAt, hdiv, hmod]

/-- Dividing by `4 ^ so` shifts the pair indices of a word down by `so`. -/
theorem div_pow4_pair (w so i : Nat) : w / 4 ^ so / 4 ^ i = w / 4 ^ (so + i) := by
  rw [Nat.div_div_eq_div_mul, ← Nat.pow_add]

/-- `_count_nonzero_pairs` of the masked-and-shifted boundary word counts
the pairs in `[so, eo)` of the original word. -/
theorem word_masked_shift (w so eo : Nat) (hw : w < 2 ^ 64)
    (hso : so ≤ eo) (heo : eo ≤ 32) :
    countNonzeroPairsWord ((w &&& ((1 <<< (eo * 2)) - 1)) >>> (so * 2)) =
      (List.range (eo - so)).countP (fun i => decide (w / 4 ^ (so + i) % 4 ≠ 0)) := by
  have h4 : ∀ k : Nat, (2 : Nat) ^ (k * 2) = 4 ^ k := by
    intro k
    rw [show (4 : Nat) = 2 ^ 2 by norm_num, ← Nat.pow_mul, Nat.mul_comm]
  have hmask : w &&& ((1 <<< (eo * 2)) - 1) = w % 4 ^ eo := by
    rw [Nat.one_shiftLeft, Nat.and_pow_two_sub_one_eq_mod, h4]
  have hshift : (w % 4 ^ eo) >>> (so * 2) = w % 4 ^ eo / 4 ^ so := by
    rw [Nat.shiftRight_eq_div_pow, h4]
  rw [hmask, hshift]
  have hylt : w % 4 ^ eo / 4 ^ so < 2 ^ 64 :=
    Nat.lt_of_le_of_lt (Nat.le_trans (Nat.div_le_self _ _) (Nat.mod_le _ _)) hw
  rw [countNonzeroPairsWord_eq _ hylt]
  have h32 : (32 : Nat) = (eo - so) + (32 - (eo - so)) := by omega
  rw [h32, List.range_add, List.countP_append]
  have hsecond :
      ((List.range (32 - (eo - so))).map ((eo - so) + ·)).countP
        (fun i => decide (w % 4 ^ eo / 4 ^ so / 4 ^ i % 4 ≠ 0)) = 0 := by
    rw [List.countP_eq_zero]
    intro a ha
    rcases List.mem_map.mp ha with ⟨i, _, rfl⟩
    have hbig : eo ≤ so + (eo - so + i) := by omega
    have hy : w % 4 ^ eo / 4 ^ so / 4 ^ (eo - so + i) = 0 := by
      rw [div_pow4_pair]
      apply Nat.div_eq_of_lt
      calc w % 4 ^ eo < 4 ^ eo := Nat.mod_lt _ (Nat.pos_pow_of_pos _ (by omega))
        _ ≤ 4 ^ (so + (eo - so + i)) := Nat.pow_le_pow_right (by omega) hbig
    simp [hy]
  rw [hsecond, Nat.add_zero]
  apply List.countP_congr
  intro i hi
  have hi' : i < eo - so := List.mem_range.mp hi
  have heq : w % 4 ^ eo / 4 ^ so / 4 ^ i % 4 = w / 4 ^ (so + i) % 4 := by
    rw [div_pow4_pair]
    have hsplit : (4 : Nat) ^ eo = 4 ^ (so + i) * 4 ^ (eo - so - i) := by
      rw [← Nat.pow_add]
      congr 1
      omega
    rw [hsplit, Nat.mod_mul_right_div_self]
    exact Nat.mod_mod_of_dvd _ (dvd_pow_self 4 (by omega))
  rw [heq]

/-- `_count_nonzero_pairs` of the shifted first boundary word counts the
pairs in `[so, 32)` of the original word. -/
theorem word_shift_count (w so : Nat) (hw : w < 2 ^ 64) (hso : so ≤ 32) :
    countNonzeroPairsWord (w >>> (so * 2)) =
      (List.range (32 - so)).countP (fun i => decide (w / 4 ^ (so + i) % 4 ≠ 0)) := by
  have h4 : (2 : Nat) ^ (so * 2) = 4 ^ so := by
    rw [show (4 : Nat) = 2 ^ 2 by norm_num, ← Nat.pow_mul, Nat.mul_comm]
  have hshift : w >>> (so * 2) = w / 4 ^ so := by
    rw [Nat.shiftRight_eq_div_pow, h4]
  rw [hshift]
  have hylt : w / 4 ^ so < 2 ^ 64 := Nat.lt_of_le_of_lt (Nat.div_le_self _ _) hw
  rw [countNonzeroPairsWord_eq _ hylt]
  have h32 : (32 : Nat) = (32 - so) + (32 - (32 - so)) := by omega
  conv_lhs => rw [h32]
  rw [List.range_add, List.countP_append]
  have hsecond :
      ((List.range (32 - (32 - so))).map ((32 - so) + ·)).countP
        (fun i => decide (w / 4 ^ so / 4 ^ i % 4 ≠ 0)) = 0 := by
    rw [List.countP_eq_zero]
    intro a ha
    rcases List.mem_map.mp ha with ⟨i, _, rfl⟩
    have hy : w / 4 ^ so / 4 ^ (32 - so + i) = 0 := by
      rw [div_pow4_pair]
      apply Nat.div_eq_of_lt
      calc w < 2 ^ 64 := hw
        _ = 4 ^ 32 := by norm_num
        _ ≤ 4 ^ (so + (32 - so + i)) := Nat.pow_le_pow_right (by omega) (by omega)
    simp [hy]
  rw [hsecond, Nat.add_zero]
  apply List.countP_congr
  intro i _
  rw [div_pow4_pair]

/-- Additivity of the specification count over adjacent ranges. -/
theorem specPairCount_add (array : List Nat) (a b c : Nat)
    (hab : a ≤ b) (hbc : b ≤ c) :
    specPairCount a c array = specPairCount a b array + specPairCount b c array := by
  unfold specPairCount
  have h1 : c - a = (b - a) + (c - b) := by omega
  rw [h1, List.range_add, List.countP_append, List.countP_map]
  congr 1
  apply List.countP_congr
  intro i _
  have : a + (b - a + i) = b + i := by omega
  simp [Function.comp, this]

/-- The specification count over a range starting at a word boundary,
contained in one word. -/
theorem specPairCount_word (array : List Nat) (b eo : Nat) (heo : eo ≤ 32) :
    specPairCount (32 * b) (32 * b + eo) array =
      (List.range eo).countP (fun i => decide (array.getD b 0 / 4 ^ i % 4 ≠ 0)) := by
  unfold specPairCount
  have h1 : 32 * b + eo - 32 * b = eo := by omega
  rw [h1]
  apply List.countP_congr
  intro i hi
  have hi' : i < eo := List.mem_range.mp hi
  have hdiv : (32 * b + i) / 32 = b := by omega
  have hmod : (32 * b + i) % 32 = i := by omega
  simp [pairValAt, hdiv, hmod]

/-- The middle full-word loop counts exactly the pairs of its word range. -/
theorem cnpMid_eq (array : List Nat) (hw : ∀ w ∈ array, w < 2 ^ 64) :
    ∀ n b, cnpMid array b n = specPairCount (32 * b) (32 * b + 32 * n) array := by
  intro n
  induction n with
  | zero => intro b; simp [cnpMid, specPairCount]
  | succ n ih =>
    intro b
    have hfull : countNonzeroPairsWord (array.getD b 0) =
        specPairCount (32 * b) (32 * b + 32) array := by
      rw [countNonzeroPairsWord_eq _ (getD_lt_of_words array hw b),
        specPairCount_word array b 32 (by omega)]
    have hib : cnpMid array (b + 1) n =
        specPairCount (32 * b + 32) (32 * b + 32 * (n + 1)) array := by
      have h := ih (b + 1)
      rw [show 32 * (b + 1) = 32 * b + 32 from by omega] at h
      rw [show 32 * b + 32 + 32 * n = 32 * b + 32 * (n + 1) from by omega] at h
      exact h
    have hsplit : specPairCount (32 * b) (32 * b + 32 * (n + 1)) array =
        specPairCount (32 * b) (32 * b + 32) array +
          specPairCount (32 * b + 32) (32 * b + 32 * (n + 1)) array :=
      specPairCount_add array _ _ _ (by omega) (by omega)
    show countNonzeroPairsWord (array.getD b 0) + cnpMid array (b + 1) n = _
    rw [hfull, hib, hsplit]
/-- `_count_nonzero_pairs` of the masked last boundary word counts the
pairs in `[0, eo)` of the original word. -/
theorem word_masked_count (w eo : Nat) (hw : w < 2 ^ 64) (heo : eo ≤ 32) :
    countNonzeroPairsWord (w &&& ((1 <<< (eo * 2)) - 1)) =
      (List.range eo).countP (fun i => decide (w / 4 ^ i % 4 ≠ 0)) := by
  have h := word_masked_shift w 0 eo hw (by omega) heo
  simp only [Nat.zero_mul, Nat.shiftRight_zero, Nat.zero_add, Nat.sub_zero] at h
  exact h

/-- The specification count from `s` up to the end of the word containing
`s`. -/
theorem spec_first_word (array : List Nat) (s : Nat) :
    specPairCount s (32 * (s / 32) + 32) array =
      (List.range (32 - s % 32)).countP
        (fun i => decide (array.getD (s / 32) 0 / 4 ^ (s % 32 + i) % 4 ≠ 0)) := by
  have h := specPairCount_segment array (s / 32) (s % 32) 32 (by omega) (by omega)
  rw [show 32 * (s / 32) + s % 32 = s from by omega] at h
  exact h

/-- The specification count from the word boundary below `e` up to `e`. -/
theorem spec_last_word (array : List Nat) (e : Nat) :
    specPairCount (32 * (e / 32)) e array =
      (List.range (e % 32)).countP
        (fun i => decide (array.getD (e / 32) 0 / 4 ^ i % 4 ≠ 0)) := by
  have h := specPairCount_word array (e / 32) (e % 32) (by omega)
  rw [show 32 * (e / 32) + e % 32 = e from by omega] at h
  exact h

/-- The specification count of a range contained in a single word. -/
theorem spec_same_word (array : List Nat) (s e : Nat) (hse : s ≤ e)
    (hblk : s / 32 = e / 32) :
    specPairCount s e array =
      (List.range (e % 32 - s % 32)).countP
        (fun i => decide (array.getD (s / 32) 0 / 4 ^ (s % 32 + i) % 4 ≠ 0)) := by
  have h := specPairCount_segment array (s / 32) (s % 32) (e % 32)
    (by omega) (by omega)
  rw [show 32 * (s / 32) + s % 32 = s from by omega] at h
  rw [show 32 * (s / 32) + e % 32 = e from by omega] at h
  exact h

/-- `count_nonzero_pairs` computes the specification count on every range
`start ≤ end_`. -/
theorem count_nonzero_pairs_eq (array : List Nat) (hw : ∀ w ∈ array, w < 2 ^ 64)
    (s e : Nat) (hse : s ≤ e) :
    count_nonzero_pairs s e array = specPairCount s e array := by
  unfold count_nonzero_pairs
  by_cases hblk : s / 32 = e / 32
  · rw [if_pos hblk]
    have hso_le : s % 32 ≤ e % 32 := by omega
    rw [word_masked_shift _ _ _ (getD_lt_of_words array hw _) hso_le (by omega),
      spec_same_word array s e hse hblk]
  · rw [if_neg hblk]
    have hlt : s / 32 < e / 32 := by omega
    have hlast : (if e % 32 ≠ 0 then
        countNonzeroPairsWord (array.getD (e / 32) 0 &&& ((1 <<< (e % 32 * 2)) - 1))
        else 0) = specPairCount (32 * (e / 32)) e array := by
      by_cases heo : e % 32 ≠ 0
      · rw [if_pos heo,
          word_masked_count _ _ (getD_lt_of_words array hw _) (by omega),
          spec_last_word array e]
      · rw [if_neg heo]
        have h0 : e - 32 * (e / 32) = 0 := by omega
        simp [specPairCount, h0]
    by_cases hso : s % 32 ≠ 0
    · rw [if_pos hso, if_pos hso]
      have hfirst :
          countNonzeroPairsWord (array.getD (s / 32) 0 >>> (s % 32 * 2)) =
            specPairCount s (32 * (s / 32) + 32) array := by
        rw [word_shift_count _ _ (getD_lt_of_words array hw _) (by omega),
          spec_first_word array s]
      have hmid : cnpMid array (s / 32 + 1) (e / 32 - (s / 32 + 1)) =
          specPairCount (32 * (s / 32) + 32) (32 * (e / 32)) array := by
        have h := cnpMid_eq array hw (e / 32 - (s / 32 + 1)) (s / 32 + 1)
        rw [show 32 * (s / 32 + 1) = 32 * (s / 32) + 32 from by omega] at h
        rw [show 32 * (s / 32) + 32 + 32 * (e / 32 - (s / 32 + 1)) = 32 * (e / 32)
          from by omega] at h
        exact h
      rw [hfirst, hmid, hlast,
        specPairCount_add array s (32 * (s / 32) + 32) e (by omega) (by omega),
        specPairCount_add array (32 * (s / 32) + 32) (32 * (e / 32)) e
          (by omega) (by omega)]
      omega
    · rw [if_neg hso, if_neg hso]
      have hmid : cnpMid array (s / 32 + 0) (e / 32 - (s / 32 + 0)) =
          specPairCount s (32 * (e / 32)) array := by
        have h := cnpMid_eq array hw (e / 32 - (s / 32 + 0)) (s / 32 + 0)
        rw [show 32 * (s / 32 + 0) + 32 * (e / 32 - (s / 32 + 0)) = 32 * (e / 32)
          from by omega] at h
        rw [show 32 * (s / 32 + 0) = s from by omega] at h
        exact h
      rw [hmid, hlast,
        specPairCount_add array s (32 * (e / 32)) e (by omega) (by omega)]
      omega

/-- C6: for every 64-bit-word array and pair range
`a ≤ b ≤ c ≤ 32 * |array|`, `count_nonzero_pairs` equals the number of
pair indices with non-zero 2-bit value in the range (`specPairCount`);
consequently adjacent counts add up, and the full-range count equals the
total number of non-zero pairs. -/
theorem count_nonzero_pairs_correct (array : List Nat)
    (hw : ∀ w ∈ array, w < 2 ^ 64) (a b c : Nat)
    (hab : a ≤ b) (hbc : b ≤ c) (_hc : c ≤ 32 * array.length) :
    count_nonzero_pairs a b array = specPairCount a b array ∧
    count_nonzero_pairs a b array + count_nonzero_pairs b c array =
      count_nonzero_pairs a c array ∧
    count_nonzero_pairs 0 (32 * array.length) array =
      specPairCount 0 (32 * array.length) array := by
  have h1 := count_nonzero_pairs_eq array hw a b hab
  have h2 := count_nonzero_pairs_eq array hw b c hbc
  have h3 := count_nonzero_pairs_eq array hw a c (Nat.le_trans hab hbc)
  refine ⟨h1, ?_, count_nonzero_pairs_eq array hw 0 _ (Nat.zero_le _)⟩
  rw [h1, h2, h3, specPairCount_add array a b c hab hbc]

/-- Witness for C6 on a concrete two-word array with a straddling range. -/
theorem count_nonzero_pairs_correct_witness :
    (∀ w ∈ [0x0123456789ABCDEF, 0x1111], w < 2 ^ 64) ∧
    (3 : Nat) ≤ 40 ∧ (40 : Nat) ≤ 64 ∧ 64 ≤ 32 * 2 ∧
    count_nonzero_pairs 3 40 [0x0123456789ABCDEF, 0x1111] =
      specPairCount 3 40 [0x0123456789ABCDEF, 0x1111] := by
  refine ⟨by decide, by decide, by decide, by decide, ?_⟩
  exact (count_nonzero_pairs_correct [0x0123456789ABCDEF, 0x1111] (by decide)
    3 40 64 (by decide) (by decide) (by decide)).1

/-! ## MPH (mph.c) -/

/-- `OFFSET_MASK` from mph.c / sf.c / sf3.c / sf4.c:
`UINT64_C(-1) >> 8 = 2^56 - 1`. -/
def OFFSET_MASK : Nat := (2 ^ 64 - 1) >>> 8

/-- `~OFFSET_MASK` on 64 bits (the seed field of an `offset_and_seed`
entry). -/
def NOT_OFFSET_MASK : Nat := (2 ^ 64 - 1) ^^^ OFFSET_MASK

/-- `C_TIMES_256 = (int)(floor((1.09 + 0.01) * 256)) = 281` from mph.c. -/
def C_TIMES_256 : Nat := 281

/-- `vertex_offset` from mph.c:
`(edge_offset_seed & OFFSET_MASK) * C_TIMES_256 >> 8`. -/
def vertex_offset (edge_offset_seed : Nat) : Nat :=
  ((edge_offset_seed &&& OFFSET_MASK) * C_TIMES_256) >>> 8

/-- `get_2bit_value` from mph.c: `pos *= 2; array[pos/64] >> pos%64 & 3`. -/
def get_2bit_value (array : List Nat) (pos : Nat) : Nat :=
  array.getD (pos * 2 / 64) 0 >>> (pos * 2 % 64) &&& 3

/-- The `mph` struct from mph.h. -/
structure Mph where
  size : Nat
  multiplier : Nat
  global_seed : Nat
  edge_offset_and_seed_length : Nat
  edge_offset_and_seed : List Nat
  array_length : Nat
  array : List Nat
deriving Repr, DecidableEq

/-- The common body of `mph_get_byte_array` / `mph_get_uint64_t` from
mph.c after the signature has been computed: bucket by the 128-bit
multiplier discipline, derive the equation, orient by the sum of the three
2-bit hinge values mod 3, and return base rank plus the pair rank of the
chosen endpoint. -/
def mph_lookup (m : Mph) (sig : SpookyState) : Nat :=
  let bucket := ((sig.h0 >>> 1) * m.multiplier) >>> 64
  let edge_offset_seed := m.edge_offset_and_seed.getD bucket 0
  let bucket_offset := vertex_offset edge_offset_seed
  let num_variables :=
    vertex_offset (m.edge_offset_and_seed.getD (bucket + 1) 0) - bucket_offset
  let e := signature_to_equation sig (edge_offset_seed &&& NOT_OFFSET_MASK) num_variables
  let side := (get_2bit_value m.array (e.1 + bucket_offset) +
    get_2bit_value m.array (e.2.1 + bucket_offset) +
    get_2bit_value m.array (e.2.2 + bucket_offset)) % 3
  let eside := if side = 0 then e.1 else if side = 1 then e.2.1 else e.2.2
  (edge_offset_seed &&& OFFSET_MASK) +
    count_nonzero_pairs bucket_offset (bucket_offset + eside) m.array

/-- The little-endian byte image of a `uint64_t` key (`&key` viewed as
8 bytes). -/
def u64Byte (key : Nat) (i : Nat) : Nat := key / 2 ^ (8 * i) % 256

/-- `mph_get_uint64_t` from mph.c. -/
def mph_get_uint64_t (m : Mph) (key : Nat) : Nat :=
  mph_lookup m (spooky_short (u64Byte key) 8 m.global_seed)

/-- `mph_get_byte_array` from mph.c. -/
def mph_get_byte_array (m : Mph) (key : List Nat) : Nat :=
  mph_lookup m (spooky_short (fun i => key.getD i 0) key.length m.global_seed)

/-- The base rank stored in the offset field of entry `b`. -/
def rankAt (m : Mph) (b : Nat) : Nat :=
  m.edge_offset_and_seed.getD b 0 &&& OFFSET_MASK

/-- Well-formedness of a serialized MPH artifact, per the data-model
invariants: consistent lengths, 64-bit words, a multiplier mapping
`[0, 2^63)` into the bucket count, strictly increasing base ranks
(non-empty buckets), sentinel rank equal to `size`, the 2-bit array
covering all buckets, and each bucket holding exactly
`rank(b+1) - rank(b)` non-zero pairs. -/
def MphWF (m : Mph) : Prop :=
  2 ≤ m.edge_offset_and_seed_length ∧
  m.edge_offset_and_seed.length = m.edge_offset_and_seed_length ∧
  m.array.length = m.array_length ∧
  (∀ w ∈ m.edge_offset_and_seed, w < 2 ^ 64) ∧
  (∀ w ∈ m.array, w < 2 ^ 64) ∧
  m.multiplier ≤ 2 * (m.edge_offset_and_seed_length - 1) ∧
  (∀ b < m.edge_offset_and_seed_length - 1, rankAt m b < rankAt m (b + 1)) ∧
  rankAt m (m.edge_offset_and_seed_length - 1) = m.size ∧
  vertex_offset (m.edge_offset_and_seed.getD (m.edge_offset_and_seed_length - 1) 0) ≤
    32 * m.array.length ∧
  (∀ b < m.edge_offset_and_seed_length - 1,
    specPairCount (vertex_offset (m.edge_offset_and_seed.getD b 0))
      (vertex_offset (m.edge_offset_and_seed.getD (b + 1) 0)) m.array =
      rankAt m (b + 1) - rankAt m b)

instance (m : Mph) : Decidable (MphWF m) := by
  unfold MphWF
  infer_instance

/-- The spec count is monotone in its right endpoint. -/
theorem specPairCount_mono (array : List Nat) (a b c : Nat)
    (hab : a ≤ b) (hbc : b ≤ c) :
    specPairCount a b array ≤ specPairCount a c array := by
  rw [specPairCount_add array a b c hab hbc]
  omega

/-- Base ranks are monotone along strictly increasing entries. -/
theorem rankAt_le_of_strict (m : Mph) (L : Nat)
    (hstrict : ∀ b < L - 1, rankAt m b < rankAt m (b + 1)) :
    ∀ d b, b + d < L → rankAt m b ≤ rankAt m (b + d) := by
  intro d
  induction d with
  | zero => intro b _; exact Nat.le_refl _
  | succ d ih =>
    intro b h
    have h1 := ih b (by omega)
    have h2 := hstrict (b + d) (by omega)
    have he : b + (d + 1) = b + d + 1 := by omega
    rw [he]
    omega

/-- `OFFSET_MASK` is `2^56 - 1`. -/
theorem OFFSET_MASK_val : OFFSET_MASK = 2 ^ 56 - 1 := by decide

/-- C5 core (amended): on a well-formed MPH artifact, the common lookup
body returns at most `size` for every 64-bit signature. -/
theorem mph_lookup_le (m : Mph) (hwf : MphWF m) (sig : SpookyState)
    (hsig : sig.h0 < 2 ^ 64) :
    mph_lookup m sig ≤ m.size := by
  obtain ⟨hlen2, hlen, harrlen, hw64, haw64, hmult, hstrict, hsent, hcover, hcount⟩ := hwf
  simp only [mph_lookup]
  set L := m.edge_offset_and_seed_length with hL
  set bucket := ((sig.h0 >>> 1) * m.multiplier) >>> 64 with hbk
  -- the bucket index is in range
  have hbucket : bucket + 1 < L := by
    have hx : sig.h0 >>> 1 ≤ 2 ^ 63 - 1 := by
      rw [Nat.shiftRight_eq_div_pow]
      have hp : (2 : Nat) ^ 64 = 2 * 2 ^ 63 := by norm_num
      omega
    have hdiv : (sig.h0 >>> 1) * m.multiplier / 2 ^ 64 < L - 1 := by
      rw [Nat.div_lt_iff_lt_mul (Nat.pos_pow_of_pos _ (by omega))]
      calc (sig.h0 >>> 1) * m.multiplier
          ≤ (2 ^ 63 - 1) * (2 * (L - 1)) :=
            Nat.mul_le_mul hx hmult
        _ < (L - 1) * 2 ^ 64 := by
            have h2 : (1 : Nat) ≤ L - 1 := by omega
            have h63 : (2 : Nat) ^ 63 - 1 = 9223372036854775807 := by norm_num
            have h64 : (2 : Nat) ^ 64 = 18446744073709551616 := by norm_num
            rw [h63, h64]
            omega
    have hbv : bucket = (sig.h0 >>> 1) * m.multiplier / 2 ^ 64 := by
      rw [hbk, Nat.shiftRight_eq_div_pow]
    omega
  set entry := m.edge_offset_and_seed.getD bucket 0 with hent
  set entryNext := m.edge_offset_and_seed.getD (bucket + 1) 0 with hentn
  have hrank : rankAt m bucket < rankAt m (bucket + 1) := hstrict bucket (by omega)
  have hrankdef : rankAt m bucket = entry &&& OFFSET_MASK := rfl
  have hrankdefn : rankAt m (bucket + 1) = entryNext &&& OFFSET_MASK := rfl
  -- vertex offsets
  have hvo : vertex_offset entry = (entry &&& OFFSET_MASK) * 281 / 256 := by
    rw [vertex_offset, Nat.shiftRight_eq_div_pow]
    norm_num [C_TIMES_256]
  have hvon : vertex_offset entryNext = (entryNext &&& OFFSET_MASK) * 281 / 256 := by
    rw [vertex_offset, Nat.shiftRight_eq_div_pow]
    norm_num [C_TIMES_256]
  have hnv1 : 1 ≤ vertex_offset entryNext - vertex_offset entry := by
    have hr := hrank
    rw [hrankdef, hrankdefn] at hr
    rw [hvo, hvon]
    omega
  have hrankmask : entryNext &&& OFFSET_MASK ≤ 2 ^ 56 - 1 := by
    rw [← OFFSET_MASK_val]
    exact Nat.and_le_right
  have hnv64 : vertex_offset entryNext - vertex_offset entry < 2 ^ 64 := by
    have : (entryNext &&& OFFSET_MASK) * 281 / 256 < 2 ^ 64 := by
      have h1 : (entryNext &&& OFFSET_MASK) * 281 ≤ (2 ^ 56 - 1) * 281 :=
        Nat.mul_le_mul_right _ hrankmask
      have h2 : ((2 : Nat) ^ 56 - 1) * 281 < 2 ^ 64 * 256 := by norm_num
      omega
    rw [hvo, hvon]
    omega
  set nv := vertex_offset entryNext - vertex_offset entry with hnv
  set e := signature_to_equation sig (entry &&& NOT_OFFSET_MASK) nv with he
  have he0 : e.1 < nv :=
    (edge_endpoint_lt _ nv hnv1 hnv64).2
  have he1 : e.2.1 < nv :=
    (edge_endpoint_lt _ nv hnv1 hnv64).2
  have he2 : e.2.2 < nv :=
    (edge_endpoint_lt _ nv hnv1 hnv64).2
  have hEside : ∀ E, E < nv →
      (entry &&& OFFSET_MASK) +
        count_nonzero_pairs (vertex_offset entry) (vertex_offset entry + E) m.array ≤
        m.size := by
    intro E hE
    have hcnt := count_nonzero_pairs_eq m.array haw64 (vertex_offset entry)
      (vertex_offset entry + E) (by omega)
    rw [hcnt]
    have hmono : specPairCount (vertex_offset entry) (vertex_offset entry + E) m.array ≤
        specPairCount (vertex_offset entry) (vertex_offset entryNext) m.array := by
      apply specPairCount_mono _ _ _ _ (by omega)
      omega
    have hexact : specPairCount (vertex_offset entry) (vertex_offset entryNext) m.array =
        rankAt m (bucket + 1) - rankAt m bucket := hcount bucket (by omega)
    have hchain : rankAt m (bucket + 1) ≤ rankAt m (L - 1) := by
      have := rankAt_le_of_strict m L hstrict (L - 1 - (bucket + 1)) (bucket + 1)
        (by omega)
      rw [show bucket + 1 + (L - 1 - (bucket + 1)) = L - 1 from by omega] at this
      exact this
    have hr := hrank
    rw [hrankdef, hrankdefn] at hr
    rw [hrankdefn] at hchain hexact
    rw [hrankdef] at hexact
    rw [← hsent]
    omega
  by_cases hs0 : (get_2bit_value m.array (e.1 + vertex_offset entry) +
      get_2bit_value m.array (e.2.1 + vertex_offset entry) +
      get_2bit_value m.array (e.2.2 + vertex_offset entry)) % 3 = 0
  · rw [if_pos hs0]
    exact hEside e.1 he0
  · rw [if_neg hs0]
    by_cases hs1 : (get_2bit_value m.array (e.1 + vertex_offset entry) +
        get_2bit_value m.array (e.2.1 + vertex_offset entry) +
        get_2bit_value m.array (e.2.2 + vertex_offset entry)) % 3 = 1
    · rw [if_pos hs1]
      exact hEside e.2.1 he1
    · rw [if_neg hs1]
      exact hEside e.2.2 he2

/-! ## Boundedness of the hash state -/

/-- All four lanes are below `2 ^ 64`. -/
def Bounded64 (s : SpookyState) : Prop :=
  s.h0 < 2 ^ 64 ∧ s.h1 < 2 ^ 64 ∧ s.h2 < 2 ^ 64 ∧ s.h3 < 2 ^ 64

theorem add64_lt (a b : Nat) : add64 a b < 2 ^ 64 :=
  Nat.mod_lt _ (by norm_num [M64])

theorem rotl64_lt (x k : Nat) (hx : x < 2 ^ 64) : rotl64 x k < 2 ^ 64 := by
  apply Nat.or_lt_two_pow
  · exact Nat.mod_lt _ (by norm_num [M64])
  · rw [Nat.shiftRight_eq_div_pow]
    exact Nat.lt_of_le_of_lt (Nat.div_le_self _ _) hx

theorem spooky_short_mix_bounded (s : SpookyState) :
    Bounded64 (spooky_short_mix s) := by
  simp only [spooky_short_mix]
  exact ⟨add64_lt _ _, add64_lt _ _,
    Nat.xor_lt_two_pow (add64_lt _ _) (add64_lt _ _),
    Nat.xor_lt_two_pow (add64_lt _ _) (add64_lt _ _)⟩

theorem spooky_short_end_bounded (s : SpookyState) :
    Bounded64 (spooky_short_end s) := by
  simp only [spooky_short_end]
  exact ⟨rotl64_lt _ _ (add64_lt _ _), add64_lt _ _,
    rotl64_lt _ _ (add64_lt _ _), rotl64_lt _ _ (add64_lt _ _)⟩

theorem spooky_short_bounded (p : Nat → Nat) (length seed : Nat) :
    Bounded64 (spooky_short p length seed) := by
  simp only [spooky_short]
  exact spooky_short_end_bounded _

/-- C5 (amended): for every well-formed MPH artifact of size `n`, both
lookup entry points return a value in `[0, n]` for every key whatsoever.
(`[0, n)` holds for keys of the original set, but a non-member key may
reach exactly `n`; see the counterexample.) -/
theorem mph_get_le_size (m : Mph) (hwf : MphWF m) :
    (∀ key : Nat, mph_get_uint64_t m key ≤ m.size) ∧
    (∀ key : List Nat, mph_get_byte_array m key ≤ m.size) :=
  ⟨fun _ => mph_lookup_le m hwf _ (spooky_short_bounded _ _ _).1,
   fun _ => mph_lookup_le m hwf _ (spooky_short_bounded _ _ _).1⟩

/-- A well-formed one-bucket MPH artifact with `size = 12`, 13 variable
positions, hinge pairs at positions 0–11 (position 10 holding value 2,
position 6 value 1, the rest 1) and pair 12 zero; its bucket seed byte
is 1. -/
def exMph : Mph :=
  { size := 12, multiplier := 0, global_seed := 0,
    edge_offset_and_seed_length := 2,
    edge_offset_and_seed := [1 <<< 56, 12],
    array_length := 1, array := [6640981] }

/-- C5 counterexample: `exMph` satisfies every stated invariant, yet the
key `0` (not a member of any 12-key set the artifact could encode — its
oriented endpoint `e[side] = 12` lies beyond all twelve hinges) returns
exactly `12 = size`, outside `[0, size)`. -/
theorem mph_get_out_of_range :
    MphWF exMph ∧ mph_get_uint64_t exMph 0 = 12 ∧
      ¬(mph_get_uint64_t exMph 0 < exMph.size) := by
  refine ⟨by decide, by decide, by decide⟩

/-- Witness for the amended C5 theorem on `exMph` at key `5`. -/
theorem mph_get_le_size_witness :
    MphWF exMph ∧ mph_get_uint64_t exMph 5 ≤ exMph.size :=
  ⟨by decide, (mph_get_le_size exMph (by decide)).1 5⟩

/-! ## SF, SF3, SF4 (sf.c, sf3.c, sf4.c) -/

/-- Byte at index `i` of a byte buffer held as a list (a C `char *`). -/
def byteAt (l : List Nat) (i : Nat) : Nat := l.getD i 0

/-- The shift-discipline `sf` struct used by sf.c (`load_sf` populates
`size, width, chunk_shift, global_seed, offset_and_seed, array`; the
struct in sf.h carries `multiplier` instead of `chunk_shift` and belongs
to the sf3.c / sf4.c multiplier discipline). -/
structure SfShift where
  size : Nat
  width : Nat
  chunk_shift : Nat
  global_seed : Nat
  offset_and_seed_length : Nat
  offset_and_seed : List Nat
  array_length : Nat
  array : List Nat
deriving Repr, DecidableEq

/-- The multiplier-discipline `sf` struct from sf.h, shared by sf3.c and
sf4.c. -/
structure Sf where
  size : Nat
  width : Nat
  multiplier : Nat
  global_seed : Nat
  offset_and_seed_length : Nat
  offset_and_seed : List Nat
  array_length : Nat
  array : List Nat
deriving Repr, DecidableEq

/-- `num_variables` as computed inside `get_byte_array` / `get_uint64_t`
of sf.c: difference of the offset fields of the chunk selected by
`h[0] >> chunk_shift`. -/
def sf_num_variables (sf : SfShift) (sig : SpookyState) : Nat :=
  let chunk := sig.h0 >>> sf.chunk_shift
  (sf.offset_and_seed.getD (chunk + 1) 0 &&& OFFSET_MASK) -
    (sf.offset_and_seed.getD chunk 0 &&& OFFSET_MASK)

/-- The common body of `get_byte_array` / `get_uint64_t` from sf.c after
hashing: shift-discipline chunk, `-1` on an empty chunk, otherwise the
XOR of the three width-`width` values at the derived endpoints. -/
def sf_lookup (sf : SfShift) (h : SpookyState) : Int :=
  let chunk := h.h0 >>> sf.chunk_shift
  let offset_seed := sf.offset_and_seed.getD chunk 0
  let chunk_offset := offset_seed &&& OFFSET_MASK
  let num_variables := sf_num_variables sf h
  if num_variables = 0 then -1
  else
    let e := signature_to_equation h (offset_seed &&& NOT_OFFSET_MASK) num_variables
    ((get_value sf.array (e.1 + chunk_offset) sf.width ^^^
      get_value sf.array (e.2.1 + chunk_offset) sf.width ^^^
      get_value sf.array (e.2.2 + chunk_offset) sf.width : Nat) : Int)

/-- `get_uint64_t` from sf.c. -/
def sf_get_uint64_t (sf : SfShift) (key : Nat) : Int :=
  sf_lookup sf (spooky_short (u64Byte key) 8 sf.global_seed)

/-- `get_byte_array` from sf.c. -/
def sf_get_byte_array (sf : SfShift) (key : List Nat) : Int :=
  sf_lookup sf (spooky_short (byteAt key) key.length sf.global_seed)

/-- The bucket selected by the multiplier discipline:
`((h0 >> 1) * multiplier) >> 64` (the high half of the 128-bit product). -/
def mult_bucket (h0 multiplier : Nat) : Nat := ((h0 >>> 1) * multiplier) >>> 64

/-- `num_variables` as computed inside `sf3_get_*` (sf3.c) and
`sf4_get_*` (sf4.c): difference of the offset fields at the selected
bucket. -/
def sf3_num_variables (sf : Sf) (sig : SpookyState) : Nat :=
  let bucket := mult_bucket sig.h0 sf.multiplier
  (sf.offset_and_seed.getD (bucket + 1) 0 &&& OFFSET_MASK) -
    (sf.offset_and_seed.getD bucket 0 &&& OFFSET_MASK)

/-- The common body of `sf3_get_byte_array` / `sf3_get_uint64_t` /
`sf3_get_signature` from sf3.c (general-width path): no guard on an empty
bucket. -/
def sf3_lookup (sf : Sf) (signature : SpookyState) : Nat :=
  let bucket := mult_bucket signature.h0 sf.multiplier
  let offset_seed := sf.offset_and_seed.getD bucket 0
  let bucket_offset := offset_seed &&& OFFSET_MASK
  let num_variables := sf3_num_variables sf signature
  let e := signature_to_equation signature (offset_seed &&& NOT_OFFSET_MASK) num_variables
  get_value sf.array (e.1 + bucket_offset) sf.width ^^^
    get_value sf.array (e.2.1 + bucket_offset) sf.width ^^^
    get_value sf.array (e.2.2 + bucket_offset) sf.width

/-- `sf3_get_uint64_t` from sf3.c. -/
def sf3_get_uint64_t (sf : Sf) (key : Nat) : Nat :=
  sf3_lookup sf (spooky_short (u64Byte key) 8 sf.global_seed)

/-- `sf3_get_byte_array` from sf3.c. -/
def sf3_get_byte_array (sf : Sf) (key : List Nat) : Nat :=
  sf3_lookup sf (spooky_short (byteAt key) key.length sf.global_seed)

/-- The common body of `sf4_get_*` from sf4.c: four endpoints, four XORs,
same bucket and `num_variables` computation as sf3.c. -/
def sf4_lookup (sf : Sf) (signature : SpookyState) : Nat :=
  let bucket := mult_bucket signature.h0 sf.multiplier
  let offset_seed := sf.offset_and_seed.getD bucket 0
  let bucket_offset := offset_seed &&& OFFSET_MASK
  let num_variables := sf3_num_variables sf signature
  let e := sf4_signature_to_equation signature (offset_seed &&& NOT_OFFSET_MASK) num_variables
  get_value sf.array (e.1 + bucket_offset) sf.width ^^^
    get_value sf.array (e.2.1 + bucket_offset) sf.width ^^^
    get_value sf.array (e.2.2.1 + bucket_offset) sf.width ^^^
    get_value sf.array (e.2.2.2 + bucket_offset) sf.width

/-- `sf4_get_uint64_t` from sf4.c. -/
def sf4_get_uint64_t (sf : Sf) (key : Nat) : Nat :=
  sf4_lookup sf (spooky_short (u64Byte key) 8 sf.global_seed)

/-- `sf4_get_byte_array` from sf4.c. -/
def sf4_get_byte_array (sf : Sf) (key : List Nat) : Nat :=
  sf4_lookup sf (spooky_short (byteAt key) key.length sf.global_seed)

/-! ## CSF3 (csf3.c) -/

/-- `OFFSET_MASK` from csf3.c: `UINT64_C(-1) >> 10 = 2^54 - 1`. -/
def CSF3_OFFSET_MASK : Nat := (2 ^ 64 - 1) >>> 10

/-- `~OFFSET_MASK` on 64 bits for csf3.c (the 10-bit seed field). -/
def CSF3_NOT_OFFSET_MASK : Nat := (2 ^ 64 - 1) ^^^ CSF3_OFFSET_MASK

/-- The `csf` struct as used by csf3.c.  csf3.c includes csf3.h, which is
not part of this repository's sources; the fields below are those the
code reads, with `multiplier`, `escape_length` and `escaped_symbol_length`
modelled from the spec (§3: multiplier discipline, 54-bit offset / 10-bit
seed split, escape parameters in bits). -/
structure Csf3 where
  size : Nat
  multiplier : Nat
  global_max_codeword_length : Nat
  global_seed : Nat
  offset_and_seed_length : Nat
  offset_and_seed : List Nat
  array_length : Nat
  array : List Nat
  symbol : List Nat
  last_codeword_plus_one : List Nat
  how_many_up_to_block : List Nat
  shift : List Nat
  escape_length : Nat
  escaped_symbol_length : Nat
deriving Repr, DecidableEq

/-- The tier-scanning loop of `decode` from csf3.c over table functions
(a C array is a function from indices to entries).  The C loop
`for (curr = 0;;curr++)` has no bound; `fuel` models the finite table, and
`none` marks the out-of-table behaviour that is undefined in C.  The
index expression is the C `(value >> s) - (last_codeword_plus_one[curr] >> s)
+ how_many_up_to_block[curr]` in wrapping 64-bit arithmetic. -/
def decodeAux (lcpo shiftT hmutb symbol : Nat → Nat) (value : Nat) :
    Nat → Nat → Option Nat
  | 0, _ => none
  | fuel + 1, curr =>
    if value < lcpo curr then
      some (symbol (((value >>> shiftT curr) + (2 ^ 64 - (lcpo curr >>> shiftT curr)) +
        hmutb curr) % 2 ^ 64))
    else decodeAux lcpo shiftT hmutb symbol value fuel (curr + 1)

/-- `decode` from csf3.c on a loaded structure. -/
def csf3_decode (c : Csf3) (value : Nat) : Option Nat :=
  decodeAux (fun i => c.last_codeword_plus_one.getD i 0)
    (fun i => c.shift.getD i 0)
    (fun i => c.how_many_up_to_block.getD i 0)
    (fun i => c.symbol.getD i 0)
    value c.last_codeword_plus_one.length 0

/-- `num_variables` as computed inside `csf3_get_*`:
`(offset(bucket+1) - offset(bucket)) - w`. -/
def csf3_num_variables (c : Csf3) (sig : SpookyState) : Nat :=
  let bucket := mult_bucket sig.h0 c.multiplier
  (c.offset_and_seed.getD (bucket + 1) 0 &&& CSF3_OFFSET_MASK) -
    (c.offset_and_seed.getD bucket 0 &&& CSF3_OFFSET_MASK) -
    c.global_max_codeword_length

/-- The common body of `csf3_get_byte_array` / `csf3_get_uint64_t` from
csf3.c: read the w-bit XOR, decode it; on the escape sentinel `-1`
(the all-ones 64-bit symbol) re-read from the array with
`get_value(array, e[i] + start, e[i] + end)` — csf3.c's `get_value`
takes `(pos, width)`, so the third argument `e[i] + end` is a width.
(`none` only when the decode loop runs off the table, which is undefined
in C.) -/
def csf3_lookup (c : Csf3) (signature : SpookyState) : Option Nat :=
  let bucket := mult_bucket signature.h0 c.multiplier
  let offset_seed := c.offset_and_seed.getD bucket 0
  let bucket_offset := offset_seed &&& CSF3_OFFSET_MASK
  let w := c.global_max_codeword_length
  let num_variables := csf3_num_variables c signature
  let e := signature_to_equation signature (offset_seed &&& CSF3_NOT_OFFSET_MASK) num_variables
  match csf3_decode c (get_value_bits c.array (e.1 + bucket_offset) w ^^^
      get_value_bits c.array (e.2.1 + bucket_offset) w ^^^
      get_value_bits c.array (e.2.2 + bucket_offset) w) with
  | none => none
  | some t =>
    if t ≠ 2 ^ 64 - 1 then some t
    else
      let end_ := c.global_max_codeword_length - c.escape_length
      let start := end_ - c.escaped_symbol_length
      some (get_value_bits c.array (e.1 + start) (e.1 + end_) ^^^
        get_value_bits c.array (e.2.1 + start) (e.2.1 + end_) ^^^
        get_value_bits c.array (e.2.2 + start) (e.2.2 + end_))

/-- `csf3_get_uint64_t` from csf3.c. -/
def csf3_get_uint64_t (c : Csf3) (key : Nat) : Option Nat :=
  csf3_lookup c (spooky_short (u64Byte key) 8 c.global_seed)

/-- `csf3_get_byte_array` from csf3.c. -/
def csf3_get_byte_array (c : Csf3) (key : List Nat) : Option Nat :=
  csf3_lookup c (spooky_short (byteAt key) key.length c.global_seed)

/-- Modelled from the spec (§4.5, C4): the escape value the claim asserts
— with `end = w - escape_length` and `start = end - escaped_symbol_length`,
the XOR over the three edge positions of reads of `escaped_symbol_length`
bits each, each read based at `bucket_offset + start` plus the edge
position (the raw escaped value in the bucket's slack region). -/
def csf3_claim_escape (c : Csf3) (signature : SpookyState) : Nat :=
  let bucket := mult_bucket signature.h0 c.multiplier
  let offset_seed := c.offset_and_seed.getD bucket 0
  let bucket_offset := offset_seed &&& CSF3_OFFSET_MASK
  let w := c.global_max_codeword_length
  let num_variables := csf3_num_variables c signature
  let e := signature_to_equation signature (offset_seed &&& CSF3_NOT_OFFSET_MASK) num_variables
  let end_ := w - c.escape_length
  let start := end_ - c.escaped_symbol_length
  get_value_bits c.array (bucket_offset + start + e.1) c.escaped_symbol_length ^^^
    get_value_bits c.array (bucket_offset + start + e.2.1) c.escaped_symbol_length ^^^
    get_value_bits c.array (bucket_offset + start + e.2.2) c.escaped_symbol_length

/-- A concrete CSF3 artifact on which every decode returns the escape
sentinel `-1`: one bucket at offset 2, `w = 8`, `escape_length = 2`,
`escaped_symbol_length = 3`, one decode tier whose only symbol is the
all-ones sentinel. -/
def exCsf : Csf3 :=
  { size := 5, multiplier := 0, global_max_codeword_length := 8, global_seed := 0,
    offset_and_seed_length := 2, offset_and_seed := [2, 15],
    array_length := 1, array := [0x0123456789ABCDEF],
    symbol := [2 ^ 64 - 1], last_codeword_plus_one := [2 ^ 64 - 1],
    how_many_up_to_block := [1], shift := [63],
    escape_length := 2, escaped_symbol_length := 3 }

/-- C4: at key `0` on `exCsf` the decoder is consulted on the w-bit XOR
value 84 and returns the escape sentinel, so the escape path runs; the
code's escape re-read `get_value(array, e[i]+start, e[i]+end)` (width
argument `e[i] + end`, base missing `bucket_offset`) yields 938, while
the value the claim specifies — `escaped_symbol_length`-bit reads based
at `bucket_offset + start` plus each edge position — is 2. -/
theorem csf3_escape_mismatch :
    csf3_decode exCsf 84 = some (2 ^ 64 - 1) ∧
    csf3_get_uint64_t exCsf 0 = some 938 ∧
    csf3_claim_escape exCsf (spooky_short (u64Byte 0) 8 exCsf.global_seed) = 2 ∧
    csf3_get_uint64_t exCsf 0 ≠
      some (csf3_claim_escape exCsf (spooky_short (u64Byte 0) 8 exCsf.global_seed)) :=
  ⟨by decide, by decide, by decide, by decide⟩

/-! ## C10: the unguarded `__builtin_clzll(num_variables)` -/

/-- The multiplier discipline maps any 64-bit `h0` into `[0, B)` whenever
`multiplier ≤ 2B` and `B ≥ 1`. -/
theorem mult_bucket_lt (h0 multiplier B : Nat) (hh : h0 < 2 ^ 64)
    (hm : multiplier ≤ 2 * B) (hB : 1 ≤ B) : mult_bucket h0 multiplier < B := by
  rw [mult_bucket, Nat.shiftRight_eq_div_pow, Nat.shiftRight_eq_div_pow]
  rw [Nat.div_lt_iff_lt_mul (Nat.pos_pow_of_pos _ (by omega))]
  have hx : h0 / 2 ^ 1 ≤ 2 ^ 63 - 1 := by
    have hp : (2 : Nat) ^ 64 = 2 * 2 ^ 63 := by norm_num
    have h1 : (2 : Nat) ^ 1 = 2 := by norm_num
    rw [h1]
    omega
  calc h0 / 2 ^ 1 * multiplier
      ≤ (2 ^ 63 - 1) * (2 * B) := Nat.mul_le_mul hx hm
    _ < B * 2 ^ 64 := by
        have h63 : (2 : Nat) ^ 63 - 1 = 9223372036854775807 := by norm_num
        have h64 : (2 : Nat) ^ 64 = 18446744073709551616 := by norm_num
        rw [h63, h64]
        omega

/-- For `1 ≤ nv < 2^63`, the leading-zero count of `nv` lies in `[1, 63]`. -/
theorem clz64_bounds (nv : Nat) (h1 : 1 ≤ nv) (h63 : nv < 2 ^ 63) :
    1 ≤ clz64 nv ∧ clz64 nv ≤ 63 := by
  have hle : bitLenAux 64 nv ≤ 63 := bitLenAux_le_of_lt 64 nv 63 h63
  have hpos : 1 ≤ bitLenAux 64 nv := bitLenAux_pos 63 nv h1
  unfold clz64
  omega

/-- C10: SF3, SF4 and CSF3 lookups take `__builtin_clzll(num_variables)`
with no zero guard; under the precondition that consecutive offset fields
strictly increase (for CSF3, by more than `w`) every selected bucket has
`num_variables ≥ 1`, the leading-zero count lies in `[1, 63]`, and the
undefined `clz(0)` branch is unreachable.  SF4 shares struct and
`num_variables` computation (`sf3_num_variables`) with SF3.  SF, unlike
these, guards: `num_variables == 0` returns `-1` before any `clz`. -/
theorem lookup_clz_guard :
    (∀ (sf : Sf) (sig : SpookyState), sig.h0 < 2 ^ 64 →
      2 ≤ sf.offset_and_seed.length →
      sf.multiplier ≤ 2 * (sf.offset_and_seed.length - 1) →
      (∀ b < sf.offset_and_seed.length - 1,
        (sf.offset_and_seed.getD b 0 &&& OFFSET_MASK) <
          (sf.offset_and_seed.getD (b + 1) 0 &&& OFFSET_MASK)) →
      1 ≤ sf3_num_variables sf sig ∧ sf3_num_variables sf sig < 2 ^ 63 ∧
        1 ≤ clz64 (sf3_num_variables sf sig) ∧ clz64 (sf3_num_variables sf sig) ≤ 63) ∧
    (∀ (c : Csf3) (sig : SpookyState), sig.h0 < 2 ^ 64 →
      2 ≤ c.offset_and_seed.length →
      c.multiplier ≤ 2 * (c.offset_and_seed.length - 1) →
      (∀ b < c.offset_and_seed.length - 1,
        (c.offset_and_seed.getD b 0 &&& CSF3_OFFSET_MASK) +
            c.global_max_codeword_length <
          (c.offset_and_seed.getD (b + 1) 0 &&& CSF3_OFFSET_MASK)) →
      1 ≤ csf3_num_variables c sig ∧ csf3_num_variables c sig < 2 ^ 63 ∧
        1 ≤ clz64 (csf3_num_variables c sig) ∧ clz64 (csf3_num_variables c sig) ≤ 63) ∧
    (∀ (sfc : SfShift) (sig : SpookyState),
      sf_num_variables sfc sig = 0 → sf_lookup sfc sig = -1) := by
  refine ⟨?_, ?_, ?_⟩
  · intro sf sig hh hlen hm hstrict
    have hbk : mult_bucket sig.h0 sf.multiplier < sf.offset_and_seed.length - 1 :=
      mult_bucket_lt _ _ _ hh hm (by omega)
    have hs := hstrict _ hbk
    have hmask : sf.offset_and_seed.getD (mult_bucket sig.h0 sf.multiplier + 1) 0 &&&
        OFFSET_MASK ≤ 2 ^ 56 - 1 := by
      rw [← OFFSET_MASK_val]
      exact Nat.and_le_right
    have h1 : 1 ≤ sf3_num_variables sf sig := by
      rw [sf3_num_variables]
      omega
    have h2 : sf3_num_variables sf sig < 2 ^ 63 := by
      rw [sf3_num_variables]
      have : (2 : Nat) ^ 56 - 1 < 2 ^ 63 := by norm_num
      omega
    exact ⟨h1, h2, clz64_bounds _ h1 h2⟩
  · intro c sig hh hlen hm hstrict
    have hbk : mult_bucket sig.h0 c.multiplier < c.offset_and_seed.length - 1 :=
      mult_bucket_lt _ _ _ hh hm (by omega)
    have hs := hstrict _ hbk
    have hmaskval : CSF3_OFFSET_MASK = 2 ^ 54 - 1 := by decide
    have hmask : c.offset_and_seed.getD (mult_bucket sig.h0 c.multiplier + 1) 0 &&&
        CSF3_OFFSET_MASK ≤ 2 ^ 54 - 1 := by
      rw [← hmaskval]
      exact Nat.and_le_right
    have h1 : 1 ≤ csf3_num_variables c sig := by
      rw [csf3_num_variables]
      omega
    have h2 : csf3_num_variables c sig < 2 ^ 63 := by
      rw [csf3_num_variables]
      have : (2 : Nat) ^ 54 - 1 < 2 ^ 63 := by norm_num
      omega
    exact ⟨h1, h2, clz64_bounds _ h1 h2⟩
  · intro sfc sig h
    rw [sf_lookup, h]
    simp

/-- A tiny multiplier-discipline artifact with one non-empty bucket. -/
def exSf : Sf :=
  { size := 5, width := 3, multiplier := 2, global_seed := 0,
    offset_and_seed_length := 2, offset_and_seed := [0, 5],
    array_length := 1, array := [0] }

/-- A shift-discipline SF artifact whose only chunk is empty. -/
def exSfEmpty : SfShift :=
  { size := 0, width := 3, chunk_shift := 63, global_seed := 0,
    offset_and_seed_length := 2, offset_and_seed := [0, 0],
    array_length := 0, array := [] }

/-- Witness for C10 at concrete artifacts and a concrete signature. -/
theorem lookup_clz_guard_witness :
    ((⟨1, 2, 3, 4⟩ : SpookyState).h0 < 2 ^ 64 ∧ 2 ≤ exSf.offset_and_seed.length ∧
      sf_num_variables exSfEmpty ⟨1, 2, 3, 4⟩ = 0) ∧
    1 ≤ clz64 (sf3_num_variables exSf ⟨1, 2, 3, 4⟩) ∧
    sf_lookup exSfEmpty ⟨1, 2, 3, 4⟩ = -1 := by
  refine ⟨⟨by decide, by decide, by decide⟩, ?_, ?_⟩
  · exact (lookup_clz_guard.1 exSf ⟨1, 2, 3, 4⟩ (by decide) (by decide)
      (by decide) (by decide)).2.2.1
  · exact lookup_clz_guard.2.2 exSfEmpty ⟨1, 2, 3, 4⟩ (by decide)

/-! ## C7: the canonical decoder on a canonically built table

A canonical code over tiers `0, …, L-1` of strictly increasing codeword
lengths `l i` with `m i` symbols per tier: the left-justified w-bit image
of the `j`-th codeword of tier `i` is `tierBase i + j * 2^(w - l i)`, and
`last_codeword_plus_one[i] = tierBase (i+1)`, `shift[i] = w - l i`,
`symbol` the canonical symbol list. -/

/-- Left-justified base of tier `i`: the w-bit image of the first
codeword of tier `i` (and `tierBase L` the Kraft sum). -/
def tierBase (l m : Nat → Nat) (w : Nat) : Nat → Nat
  | 0 => 0
  | i + 1 => tierBase l m w i + m i * 2 ^ (w - l i)

/-- Number of symbols in tiers `0, …, i-1`. -/
def tierCnt (m : Nat → Nat) : Nat → Nat
  | 0 => 0
  | i + 1 => tierCnt m i + m i

/-- Modelled from the spec (§3, C7): `how_many_up_to_block[i]` as the spec
words it — the cumulative count of symbols with codeword length at most
`l (i-1)`, that is, the count over tiers strictly before `i`. -/
def hmutbSpecLit (m : Nat → Nat) (i : Nat) : Nat := tierCnt m i

theorem tierBase_mono (l m : Nat → Nat) (w : Nat) :
    ∀ a b, a ≤ b → tierBase l m w a ≤ tierBase l m w b := by
  intro a b hab
  induction b with
  | zero =>
    have : a = 0 := by omega
    subst this
    exact Nat.le_refl _
  | succ b ih =>
    rcases Nat.eq_or_lt_of_le hab with h | h
    · subst h
      exact Nat.le_refl _
    · exact Nat.le_trans (ih (by omega)) (Nat.le_add_right _ _)

theorem tierCnt_mono (m : Nat → Nat) :
    ∀ a b, a ≤ b → tierCnt m a ≤ tierCnt m b := by
  intro a b hab
  induction b with
  | zero =>
    have : a = 0 := by omega
    subst this
    exact Nat.le_refl _
  | succ b ih =>
    rcases Nat.eq_or_lt_of_le hab with h | h
    · subst h
      exact Nat.le_refl _
    · exact Nat.le_trans (ih (by omega)) (Nat.le_add_right _ _)

/-- Tier lengths are strictly increasing across any gap. -/
theorem tier_len_lt (L : Nat) (l : Nat → Nat)
    (hmono : ∀ i, i + 1 < L → l i < l (i + 1)) :
    ∀ t i, t < i → i < L → l t < l i := by
  intro t i
  induction i with
  | zero => intro h _; omega
  | succ i ih =>
    intro h hiL
    rcases Nat.lt_or_ge t i with h' | h'
    · exact Nat.lt_trans (ih h' (by omega)) (hmono i (by omega))
    · have ht : t = i := by omega
      subst ht
      exact hmono t (by omega)

/-- `tierBase i` is a multiple of the tier-`i` unit `2^(w - l i)`. -/
theorem tierBase_dvd (l m : Nat → Nat) (w L : Nat)
    (hmono : ∀ i, i + 1 < L → l i < l (i + 1)) (i : Nat) (hi : i < L) :
    2 ^ (w - l i) ∣ tierBase l m w i := by
  have key : ∀ k, k ≤ i → 2 ^ (w - l i) ∣ tierBase l m w k := by
    intro k
    induction k with
    | zero => intro _; simp [tierBase]
    | succ k ih =>
      intro hk
      show 2 ^ (w - l i) ∣ tierBase l m w k + m k * 2 ^ (w - l k)
      apply dvd_add (ih (by omega))
      apply Dvd.dvd.mul_left
      apply pow_dvd_pow
      have hlk : l k < l i := tier_len_lt L l hmono k i (by omega) hi
      omega
  exact key i (Nat.le_refl _)

/-- The tier scan skips every tier whose `last_codeword_plus_one` is at
most the value. -/
theorem decodeAux_skip_to (lcpo shiftT hmutb symbol : Nat → Nat) (v L i : Nat)
    (hi : i ≤ L) (hskip : ∀ t, t < i → lcpo t ≤ v) :
    ∀ d c, c + d = i →
      decodeAux lcpo shiftT hmutb symbol v (L - c) c =
        decodeAux lcpo shiftT hmutb symbol v (L - i) i := by
  intro d
  induction d with
  | zero =>
    intro c hc
    rw [show c = i from by omega]
  | succ d ih =>
    intro c hc
    have hcl : c < i := by omega
    have hfuel : L - c = (L - (c + 1)) + 1 := by omega
    rw [hfuel]
    show decodeAux lcpo shiftT hmutb symbol v ((L - (c + 1)) + 1) c = _
    rw [decodeAux]
    rw [if_neg (Nat.not_lt.mpr (hskip c hcl))]
    exact ih (c + 1) (by omega)

/-- C7 (amended): for a decoder table canonically built from a prefix-free
canonical code — `last_codeword_plus_one[i] = tierBase (i+1)`,
`shift[i] = w - l i`, `symbol` the canonical symbol array, and
`how_many_up_to_block[i] = tierCnt m (i+1)`, the cumulative count of
symbols with codeword length **at most `l i`** (the spec's "at most
`l (i-1)`" is off by one tier; see the counterexample) — decoding the
left-justified w-bit image of any codeword followed by arbitrary low-bit
padding terminates at that codeword's tier and returns its symbol. -/
theorem decode_canonical (w L : Nat) (l m sym : Nat → Nat)
    (hw64 : w ≤ 64)
    (hmono : ∀ i, i + 1 < L → l i < l (i + 1))
    (hkraft : tierBase l m w L ≤ 2 ^ w)
    (hcnt : tierCnt m L < 2 ^ 64)
    (i j pad : Nat) (hi : i < L) (hj : j < m i) (hpad : pad < 2 ^ (w - l i)) :
    decodeAux (fun t => tierBase l m w (t + 1)) (fun t => w - l t)
      (fun t => tierCnt m (t + 1)) sym
      (tierBase l m w i + j * 2 ^ (w - l i) + pad) L 0 =
      some (sym (tierCnt m i + j)) := by
  set s := w - l i with hs
  set v := tierBase l m w i + j * 2 ^ s + pad with hv
  have hP : 0 < 2 ^ s := Nat.pos_pow_of_pos _ (by omega)
  -- the value lies in tier i
  have hvlt : v < tierBase l m w (i + 1) := by
    show tierBase l m w i + j * 2 ^ s + pad < tierBase l m w i + m i * 2 ^ s
    have h1 : j * 2 ^ s + pad < (j + 1) * 2 ^ s := by
      rw [Nat.succ_mul]
      omega
    have h2 : (j + 1) * 2 ^ s ≤ m i * 2 ^ s := Nat.mul_le_mul_right _ (by omega)
    omega
  -- earlier tiers are all skipped
  have hskip : ∀ t, t < i → tierBase l m w (t + 1) ≤ v := by
    intro t ht
    have h1 : tierBase l m w (t + 1) ≤ tierBase l m w i :=
      tierBase_mono l m w (t + 1) i (by omega)
    omega
  have hstep := decodeAux_skip_to (fun t => tierBase l m w (t + 1))
    (fun t => w - l t) (fun t => tierCnt m (t + 1)) sym v L i (by omega) hskip i 0
    (by omega)
  rw [Nat.sub_zero] at hstep
  rw [hstep]
  have hfuel : L - i = (L - i - 1) + 1 := by omega
  rw [hfuel]
  show decodeAux _ _ _ _ v ((L - i - 1) + 1) i = _
  rw [decodeAux]
  rw [if_pos hvlt]
  -- index arithmetic at the matching tier
  obtain ⟨D, hD⟩ := tierBase_dvd l m w L hmono i hi
  have hvshift : v >>> (w - l i) = D + j := by
    rw [Nat.shiftRight_eq_div_pow, ← hs]
    rw [show v = pad + 2 ^ s * (D + j) from by rw [hv, hD, ← hs]; ring]
    rw [Nat.add_mul_div_left _ _ hP, Nat.div_eq_of_lt (by rw [hs] at hpad ⊢; exact hpad)]
    omega
  have hbn : tierBase l m w (i + 1) = 2 ^ s * (D + m i) := by
    show tierBase l m w i + m i * 2 ^ (w - l i) = _
    rw [hD, ← hs]
    ring
  have hlshift : tierBase l m w (i + 1) >>> (w - l i) = D + m i := by
    rw [Nat.shiftRight_eq_div_pow, ← hs, hbn]
    rw [Nat.mul_div_cancel_left _ hP]
  have hDm : D + m i ≤ 2 ^ 64 := by
    have h1 : 2 ^ s * (D + m i) ≤ 2 ^ w := by
      rw [← hbn]
      exact Nat.le_trans (tierBase_mono l m w (i + 1) L (by omega)) hkraft
    have h2 : D + m i ≤ 2 ^ s * (D + m i) := Nat.le_mul_of_pos_left _ hP
    have h3 : (2 : Nat) ^ w ≤ 2 ^ 64 := Nat.pow_le_pow_right (by omega) hw64
    omega
  have hcnti : tierCnt m i + m i ≤ tierCnt m L := by
    have h1 : tierCnt m (i + 1) ≤ tierCnt m L := tierCnt_mono m (i + 1) L (by omega)
    have h2 : tierCnt m (i + 1) = tierCnt m i + m i := rfl
    omega
  simp only [hvshift, hlshift]
  congr 2
  have h64 : (2 : Nat) ^ 64 = 18446744073709551616 := by norm_num
  have h2 : tierCnt m (i + 1) = tierCnt m i + m i := rfl
  rw [h2, h64]
  rw [h64] at hDm hcnt
  omega

/-- Tier lengths of the concrete two-tier code `{0} ∪ {10, 11}` (lengths
1 and 2, one and two symbols, `w = 2`, symbols 10, 20, 30). -/
def exTierLen (t : Nat) : Nat := [1, 2].getD t 0

/-- Tier sizes of the concrete two-tier code. -/
def exTierCount (t : Nat) : Nat := [1, 2].getD t 0

/-- Symbols of the concrete two-tier code in canonical order. -/
def exTierSym (k : Nat) : Nat := [10, 20, 30].getD k 0

/-- C7 counterexample: with `how_many_up_to_block` built literally per the
spec's words (count of symbols of length ≤ `l (i-1)`, i.e. `tierCnt m i`),
decoding the w-bit image `2` of the codeword `10` of symbol 20 wraps the
index to `2^64 - 1` and returns 0 (out-of-table read), not 20. -/
theorem decode_spec_hmutb_wrong :
    decodeAux (fun t => tierBase exTierLen exTierCount 2 (t + 1))
      (fun t => 2 - exTierLen t) (hmutbSpecLit exTierCount) exTierSym
      2 2 0 = some 0 ∧
    tierBase exTierLen exTierCount 2 1 + 0 * 2 ^ (2 - exTierLen 1) + 0 = 2 ∧
    exTierSym (tierCnt exTierCount 1 + 0) = 20 ∧
    (some 0 : Option Nat) ≠ some 20 :=
  ⟨by decide, by decide, by decide, by decide⟩

/-- Witness for the amended C7 theorem: the corrected table decodes the
image of symbol 20's codeword to 20. -/
theorem decode_canonical_witness :
    (2 ≤ 64 ∧ tierBase exTierLen exTierCount 2 2 ≤ 2 ^ 2 ∧
      tierCnt exTierCount 2 < 2 ^ 64 ∧ 1 < 2 ∧ 0 < exTierCount 1 ∧
      0 < 2 ^ (2 - exTierLen 1)) ∧
    decodeAux (fun t => tierBase exTierLen exTierCount 2 (t + 1))
      (fun t => 2 - exTierLen t) (fun t => tierCnt exTierCount (t + 1)) exTierSym
      (tierBase exTierLen exTierCount 2 1 + 0 * 2 ^ (2 - exTierLen 1) + 0) 2 0 =
      some (exTierSym (tierCnt exTierCount 1 + 0)) := by
  refine ⟨⟨by decide, by decide, by decide, by decide, by decide, by decide⟩, ?_⟩
  exact decode_canonical 2 2 exTierLen exTierCount exTierSym (by decide)
    (by intro i hi; have h0 : i = 0 := (by omega); rw [h0]; decide)
    (by decide) (by decide) 1 0 0 (by decide) (by decide) (by decide)

/-! ## Loaders (mph.c `load_mph`, sf.c `load_sf`, csf.c `load_csf`)

The byte stream of the artifact file is a `List Nat`.  `read(2)` on a
regular file returns fewer bytes only at end of file, and every
destination is `calloc`-zeroed, so a read past the end of the stream
leaves zero bytes; none of the loaders inspects the return value of
`read`.  Reads are therefore modelled at fixed offsets with zero fill
past the end of the list. -/

/-- `n`-byte little-endian read at byte offset `pos` (zero-filled past
the end of the stream). -/
def readLE (s : List Nat) : Nat → Nat → Nat
  | _, 0 => 0
  | pos, n + 1 => byteAt s pos + 256 * readLE s (pos + 1) n

/-- Read `n` 64-bit little-endian words starting at byte offset `pos`. -/
def readU64s (s : List Nat) : Nat → Nat → List Nat
  | _, 0 => []
  | pos, n + 1 => readLE s pos 8 :: readU64s s (pos + 8) n

/-- Read `n` 32-bit little-endian words starting at byte offset `pos`. -/
def readU32s (s : List Nat) : Nat → Nat → List Nat
  | _, 0 => []
  | pos, n + 1 => readLE s pos 4 :: readU32s s (pos + 4) n

/-- `load_mph` from mph.c: `size, multiplier, global_seed,
edge_offset_and_seed_length, edge_offset_and_seed[*], array_length,
array[*]`, with unchecked reads. -/
def load_mph (s : List Nat) : Mph :=
  let size := readLE s 0 8
  let multiplier := readLE s 8 8
  let global_seed := readLE s 16 8
  let edge_offset_and_seed_length := readLE s 24 8
  let edge_offset_and_seed := readU64s s 32 edge_offset_and_seed_length
  let pos := 32 + 8 * edge_offset_and_seed_length
  let array_length := readLE s pos 8
  let array := readU64s s (pos + 8) array_length
  ⟨size, multiplier, global_seed, edge_offset_and_seed_length,
    edge_offset_and_seed, array_length, array⟩

/-- `load_sf` from sf.c: `size, width, chunk_shift, global_seed,
offset_and_seed_length, offset_and_seed[*], array_length, array[*]`. -/
def load_sf (s : List Nat) : SfShift :=
  let size := readLE s 0 8
  let width := readLE s 8 8
  let chunk_shift := readLE s 16 8
  let global_seed := readLE s 24 8
  let offset_and_seed_length := readLE s 32 8
  let offset_and_seed := readU64s s 40 offset_and_seed_length
  let pos := 40 + 8 * offset_and_seed_length
  let array_length := readLE s pos 8
  let array := readU64s s (pos + 8) array_length
  ⟨size, width, chunk_shift, global_seed, offset_and_seed_length,
    offset_and_seed, array_length, array⟩

/-- The `csf` struct from csf.h, populated by `load_csf`. -/
structure Csf where
  size : Nat
  chunk_shift : Nat
  global_max_codeword_length : Nat
  global_seed : Nat
  offset_and_seed_length : Nat
  offset_and_seed : List Nat
  array_length : Nat
  array : List Nat
  symbol : List Nat
  last_codeword_plus_one : List Nat
  how_many_up_to_block : List Nat
  shift : List Nat
deriving Repr, DecidableEq

/-- `load_csf` from csf.c: `size, chunk_shift, global_max_codeword_length,
global_seed, offset_and_seed_length, offset_and_seed[*], array_length,
array[*], decoding_table_length, last_codeword_plus_one[*] (64-bit),
how_many_up_to_block[*] (32-bit), shift[*] (32-bit), num_symbols,
symbol[*] (num_symbols 64-bit words)`. -/
def load_csf (s : List Nat) : Csf :=
  let size := readLE s 0 8
  let chunk_shift := readLE s 8 8
  let global_max_codeword_length := readLE s 16 8
  let global_seed := readLE s 24 8
  let offset_and_seed_length := readLE s 32 8
  let offset_and_seed := readU64s s 40 offset_and_seed_length
  let p1 := 40 + 8 * offset_and_seed_length
  let array_length := readLE s p1 8
  let array := readU64s s (p1 + 8) array_length
  let p2 := p1 + 8 + 8 * array_length
  let decoding_table_length := readLE s p2 8
  let last_codeword_plus_one := readU64s s (p2 + 8) decoding_table_length
  let p3 := p2 + 8 + 8 * decoding_table_length
  let how_many_up_to_block := readU32s s p3 decoding_table_length
  let p4 := p3 + 4 * decoding_table_length
  let shift := readU32s s p4 decoding_table_length
  let p5 := p4 + 4 * decoding_table_length
  let num_symbols := readLE s p5 8
  let symbol := readU64s s (p5 + 8) num_symbols
  ⟨size, chunk_shift, global_max_codeword_length, global_seed,
    offset_and_seed_length, offset_and_seed, array_length, array,
    symbol, last_codeword_plus_one, how_many_up_to_block, shift⟩

theorem getD_replicate_zero (k j : Nat) :
    (List.replicate k (0 : Nat)).getD j 0 = 0 := by
  induction k generalizing j with
  | zero => rfl
  | succ k ih =>
    match j with
    | 0 => rfl
    | j + 1 => exact ih j

/-- Zero-padding the stream does not change any byte read. -/
theorem byteAt_append_zeros (s : List Nat) (k i : Nat) :
    byteAt (s ++ List.replicate k 0) i = byteAt s i := by
  unfold byteAt
  rcases Nat.lt_or_ge i s.length with h | h
  · rw [List.getD_append _ _ _ _ h]
  · rw [List.getD_eq_default _ _ h, List.getD_append_right _ _ _ _ h,
      getD_replicate_zero]

/-- Zero-padding the stream does not change any little-endian read. -/
theorem readLE_append_zeros (s : List Nat) (k : Nat) :
    ∀ n pos, readLE (s ++ List.replicate k 0) pos n = readLE s pos n := by
  intro n
  induction n with
  | zero => intro pos; rfl
  | succ n ih =>
    intro pos
    show byteAt _ pos + 256 * readLE _ (pos + 1) n = _
    rw [byteAt_append_zeros, ih]
    rfl

/-- Zero-padding the stream does not change any 64-bit array read. -/
theorem readU64s_append_zeros (s : List Nat) (k : Nat) :
    ∀ n pos, readU64s (s ++ List.replicate k 0) pos n = readU64s s pos n := by
  intro n
  induction n with
  | zero => intro pos; rfl
  | succ n ih =>
    intro pos
    show readLE _ pos 8 :: readU64s _ (pos + 8) n = _
    rw [readLE_append_zeros, ih]
    rfl

/-- Zero-padding the stream does not change any 32-bit array read. -/
theorem readU32s_append_zeros (s : List Nat) (k : Nat) :
    ∀ n pos, readU32s (s ++ List.replicate k 0) pos n = readU32s s pos n := by
  intro n
  induction n with
  | zero => intro pos; rfl
  | succ n ih =>
    intro pos
    show readLE _ pos 4 :: readU32s _ (pos + 4) n = _
    rw [readLE_append_zeros, ih]
    rfl

/-- C9 (amended): the loaders never fail.  A stream truncated anywhere
loads exactly as its zero-extension does — unread fields and array tails
are zero — and unreasonable length fields are not detected; no
`CorruptArtifact` (or any other) error path exists in the code, which
ignores every `read` return value. -/
theorem loaders_total_zero_fill (s : List Nat) (k : Nat) :
    load_mph s = load_mph (s ++ List.replicate k 0) ∧
    load_sf s = load_sf (s ++ List.replicate k 0) ∧
    load_csf s = load_csf (s ++ List.replicate k 0) := by
  refine ⟨?_, ?_, ?_⟩
  · simp only [load_mph, readLE_append_zeros, readU64s_append_zeros]
  · simp only [load_sf, readLE_append_zeros, readU64s_append_zeros]
  · simp only [load_csf, readLE_append_zeros, readU64s_append_zeros,
      readU32s_append_zeros]

/-- A 40-byte stream: a valid MPH header (`size 12, multiplier 3,
global_seed 7, edge_offset_and_seed_length 5`) followed by only one of
the five declared `edge_offset_and_seed` words and nothing else. -/
def exStream : List Nat :=
  [12, 0, 0, 0, 0, 0, 0, 0,
   3, 0, 0, 0, 0, 0, 0, 0,
   7, 0, 0, 0, 0, 0, 0, 0,
   5, 0, 0, 0, 0, 0, 0, 0,
   99, 0, 0, 0, 0, 0, 0, 0]

/-- C9 counterexample: the truncated stream `exStream` (40 bytes, while
its own length field demands at least `32 + 8*5 + 8 = 80`) does not make
`load_mph` fail: it returns a structure, with the four missing
`edge_offset_and_seed` words and the `array_length` field read as zero. -/
theorem load_mph_truncated_returns :
    exStream.length = 40 ∧
    exStream.length < 32 + 8 * (load_mph exStream).edge_offset_and_seed_length + 8 ∧
    load_mph exStream = ⟨12, 3, 7, 5, [99, 0, 0, 0, 0], 0, []⟩ :=
  ⟨by decide, by decide, by decide⟩

/-! ## C1: spooky_short against the SpookyHash v2 Short reference

The reference function is stated over the byte list itself, as spec §4.1
describes it: initialise `[seed, seed, SC_CONST, SC_CONST]`, absorb
32-byte blocks while at least 32 bytes remain, absorb one 16-byte half
block when 16 or more bytes remain, absorb the trailing 0..15 bytes into
h2/h3 as little-endian byte sums (case 0 adding SC_CONST to both, case 8
and above reading an aligned little-endian 64-bit word into h2), add
`length * 8` to h0, and finish with ShortEnd.  `spooky_short` above is the
C translation (pointer offsets, a counted block loop, a `length > 15`
guard and a fall-through `switch`); C1 asserts the two agree. -/

/-- Reference block phase: structural recursion consuming 32 bytes at a
time while they last, returning the state and the unconsumed suffix. -/
def spookyRefLoop (s : SpookyState) (msg : List Nat) : SpookyState × List Nat :=
  if h : 32 ≤ msg.length then
    spookyRefLoop (spooky_block_step (byteAt msg) 0 s) (msg.drop 32)
  else (s, msg)
termination_by msg.length
decreasing_by simp only [List.length_drop]; omega

/-- Reference half-block phase: absorb one 16-byte half block when 16 or
more bytes remain. -/
def spookyRefHalf (s : SpookyState) (rest : List Nat) : SpookyState × List Nat :=
  if 16 ≤ rest.length then (spooky_half_step (byteAt rest) 0 s, rest.drop 16)
  else (s, rest)

/-- Reference tail phase on the trailing 0..15 bytes, in closed form: no
remainder adds SC_CONST to h2 and h3; 1..7 bytes are added to h2 as the
little-endian byte sum; 8 bytes are an aligned little-endian word into h2;
9..15 add the little-endian sum of bytes 8.. to h3 and the aligned word of
bytes 0..7 to h2. -/
def spookyRefTail (s : SpookyState) (rest : List Nat) : SpookyState :=
  if rest.length = 0 then
    { s with h2 := add64 s.h2 SC_CONST, h3 := add64 s.h3 SC_CONST }
  else if rest.length ≤ 7 then
    { s with h2 := add64 s.h2 (readLE rest 0 rest.length) }
  else if rest.length = 8 then
    { s with h2 := add64 s.h2 (spooky_read_le64 (byteAt rest) 0) }
  else
    { s with h2 := add64 s.h2 (spooky_read_le64 (byteAt rest) 0),
             h3 := add64 s.h3 (readLE rest 8 (rest.length - 8)) }

/-- The SpookyShort v2 reference function over a byte list, per spec §4.1:
block phase, half-block phase, tail phase, `h0 += length * 8`, ShortEnd. -/
def spookyShortRef (msg : List Nat) (seed : Nat) : SpookyState :=
  let r1 := spookyRefLoop ⟨seed, seed, SC_CONST, SC_CONST⟩ msg
  let r2 := spookyRefHalf r1.1 r1.2
  let s3 := spookyRefTail r2.1 r2.2
  spooky_short_end { s3 with h0 := add64 s3.h0 (msg.length * 8) }

/-- Dropping `k` bytes shifts every byte access by `k`. -/
theorem byteAt_drop (msg : List Nat) (k i : Nat) :
    byteAt (msg.drop k) i = byteAt msg (k + i) := by
  unfold byteAt
  rw [List.getD_eq_getElem?_getD, List.getD_eq_getElem?_getD, List.getElem?_drop]

/-- A 64-bit read from a dropped list is a read at the shifted offset. -/
theorem read_le64_drop (msg : List Nat) (k off : Nat) :
    spooky_read_le64 (byteAt (msg.drop k)) off =
      spooky_read_le64 (byteAt msg) (k + off) := by
  simp [spooky_read_le64, byteAt_drop, Nat.add_assoc]

/-- A block step on a dropped list is a block step at the shifted offset. -/
theorem block_step_drop (msg : List Nat) (k : Nat) (s : SpookyState) :
    spooky_block_step (byteAt (msg.drop k)) 0 s =
      spooky_block_step (byteAt msg) k s := by
  simp [spooky_block_step, read_le64_drop]

/-- A half step on a dropped list is a half step at the shifted offset. -/
theorem half_step_drop (msg : List Nat) (k : Nat) (s : SpookyState) :
    spooky_half_step (byteAt (msg.drop k)) 0 s =
      spooky_half_step (byteAt msg) k s := by
  simp [spooky_half_step, read_le64_drop]

/-- Collapsing two modular additions into one. -/
theorem add64_add64 (a x y : Nat) : add64 (add64 a x) y = add64 a (x + y) := by
  unfold add64; rw [Nat.mod_add_mod, Nat.add_assoc]

/-- The reference block loop started on `msg.drop k` runs exactly
`(msg.length - k) / 32` iterations and equals the C counted loop. -/
theorem spookyRefLoop_eq_blocks (msg : List Nat) :
    ∀ (n k : Nat) (s : SpookyState), (msg.length - k) / 32 = n →
      spookyRefLoop s (msg.drop k) =
        (spooky_blocks (byteAt msg) k n s, msg.drop (k + 32 * n)) := by
  intro n
  induction n with
  | zero =>
    intro k s h
    rw [spookyRefLoop]
    have hlt : ¬ 32 ≤ (msg.drop k).length := by
      simp only [List.length_drop]; omega
    rw [dif_neg hlt]
    simp [spooky_blocks]
  | succ n ih =>
    intro k s h
    rw [spookyRefLoop]
    have hge : 32 ≤ (msg.drop k).length := by
      simp only [List.length_drop]; omega
    rw [dif_pos hge, List.drop_drop, block_step_drop]
    have hrec := ih (k + 32) (spooky_block_step (byteAt msg) k s) (by omega)
    rw [hrec]
    rw [show spooky_blocks (byteAt msg) k (n + 1) s
          = spooky_blocks (byteAt msg) (k + 32) n (spooky_block_step (byteAt msg) k s)
        from rfl]
    rw [show k + 32 + 32 * n = k + 32 * (n + 1) from by omega]

/-- The fall-through `switch` of `spooky_short` on `left = msg.length - k`
trailing bytes at offset `k` equals the closed-form reference tail on the
dropped suffix, for every `left < 16`. -/
theorem spooky_tail_ref (msg : List Nat) (k : Nat) (s : SpookyState)
    (hlt : msg.length - k < 16) :
    spooky_tail (byteAt msg) k s (msg.length - k) = spookyRefTail s (msg.drop k) := by
  have hlen : (msg.drop k).length = msg.length - k := by simp
  obtain ⟨c, hc⟩ : ∃ c, msg.length - k = c := ⟨_, rfl⟩
  rw [hc] at hlt hlen ⊢
  interval_cases c <;>
    (simp [spooky_tail, spooky_tc0, spooky_tc1, spooky_tc2, spooky_tc3, spooky_tc4,
        spooky_tc5, spooky_tc6, spooky_tc7, spooky_tc8, spooky_tc9, spooky_tc10,
        spooky_tc11, spooky_tc12, spooky_tc13, spooky_tc14, spooky_tc15,
        spookyRefTail, hlen, readLE, byteAt_drop, read_le64_drop,
        Nat.shiftLeft_eq, add64, M64]
     try omega)

/-- C1: for every byte buffer and every seed, `spooky_short` — the C
translation with its counted 32-byte block loop, `length > 15` guard,
16-byte half block, fall-through tail `switch`, `h0 += length * 8` and
ShortEnd — computes exactly the SpookyHash v2 Short reference function
`spookyShortRef` stated structurally over the byte list. -/
theorem spooky_short_matches_reference (msg : List Nat) (seed : Nat) :
    spooky_short (byteAt msg) msg.length seed = spookyShortRef msg seed := by
  have hloop := spookyRefLoop_eq_blocks msg (msg.length / 32) 0
      (⟨seed, seed, SC_CONST, SC_CONST⟩ : SpookyState) (by rw [Nat.sub_zero])
  rw [List.drop_zero, Nat.zero_add] at hloop
  by_cases h15 : 15 < msg.length
  · by_cases h16 : 16 ≤ msg.length % 32
    · have h16' : 16 ≤ (msg.drop (32 * (msg.length / 32))).length := by
        simp only [List.length_drop]; omega
      have htail := spooky_tail_ref msg (32 * (msg.length / 32) + 16)
          (spooky_half_step (byteAt msg) (32 * (msg.length / 32))
            (spooky_blocks (byteAt msg) 0 (msg.length / 32)
              ⟨seed, seed, SC_CONST, SC_CONST⟩)) (by omega)
      simp only [spookyShortRef]
      rw [hloop]; dsimp only
      simp only [spookyRefHalf]
      rw [if_pos h16']; dsimp only
      rw [half_step_drop, List.drop_drop]
      simp only [spooky_short]
      rw [if_pos h15, if_pos h16]; dsimp only
      rw [show msg.length / 32 * 32 = 32 * (msg.length / 32) from Nat.mul_comm _ _]
      rw [show msg.length % 32 - 16 = msg.length - (32 * (msg.length / 32) + 16)
          from by omega]
      rw [htail]
    · have hh : ¬ 16 ≤ (msg.drop (32 * (msg.length / 32))).length := by
        simp only [List.length_drop]; omega
      have htail := spooky_tail_ref msg (32 * (msg.length / 32))
          (spooky_blocks (byteAt msg) 0 (msg.length / 32)
            ⟨seed, seed, SC_CONST, SC_CONST⟩) (by omega)
      simp only [spookyShortRef]
      rw [hloop]; dsimp only
      simp only [spookyRefHalf]
      rw [if_neg hh]; dsimp only
      simp only [spooky_short]
      rw [if_pos h15, if_neg h16]; dsimp only
      rw [show msg.length / 32 * 32 = 32 * (msg.length / 32) from Nat.mul_comm _ _]
      rw [show msg.length % 32 = msg.length - 32 * (msg.length / 32) from by omega]
      rw [htail]
  · have hn : msg.length / 32 = 0 := by omega
    rw [hn] at hloop
    have htail := spooky_tail_ref msg 0
        (⟨seed, seed, SC_CONST, SC_CONST⟩ : SpookyState) (by omega)
    rw [Nat.sub_zero, List.drop_zero] at htail
    have hh : ¬ 16 ≤ msg.length := by omega
    simp only [spookyShortRef]
    rw [hloop]; dsimp only
    rw [show (32 : Nat) * 0 = 0 from rfl, List.drop_zero]
    simp only [spookyRefHalf, List.length_drop]
    rw [if_neg hh]; dsimp only
    simp only [spooky_blocks]
    simp only [spooky_short]
    rw [if_neg h15]; dsimp only
    rw [show msg.length % 32 = msg.length from by omega]
    rw [htail]
